import Mathlib

/-!
Shallow embedding of the text-reconstruction and markdown-structuring core of
the PDF-Processor repository, together with proofs settling the claims
C1..C10 about it.

Sources embedded:
- `src/src/main/workers/pdf-processor.js` (the `TextCorrector` and `OCRWorker`
  classes: correction passes, structure reconstruction, spell check, flow
  normalization, final cleanup, page-result combination);
- `src/src/utils/markdown-generator.js` (the `MarkdownGenerator` class).

Strings are modelled as `List Char` (`Str`).  JavaScript regular-expression
replaces are modelled by explicit left-to-right scanners that reproduce the
leftmost-match / greedy / non-overlapping semantics of the concrete patterns
appearing in the source (each scanner is documented with the regex it embeds).
The character class `\s` is modelled by the ASCII whitespace characters
(space, tab, newline, carriage return, vertical tab, form feed); all inputs
appearing in the claims are ASCII.  `\w` is `[A-Za-z0-9_]`.

External collaborators are oracles: the dictionary (`SpellOracle`, the nspell
or fallback checker of `TextCorrector`) and the `compromise` NLP round-trip
`doc.text()` inside `improveTextFlow` (an `nlp : Str → Str` parameter).
The JavaScript scoping error in `determineHeadingLevel` (the identifier
`line` is not in scope in that method, so evaluating its all-caps case throws
a `ReferenceError`) is modelled by an `Except` result.
-/

abbrev Str := List Char

/-! ## Character classes -/

/-- JS `\s` (ASCII part): space, tab, newline, CR, vertical tab, form feed. -/
def isWS (c : Char) : Bool :=
  c = ' ' || c = '\t' || c = '\n' || c = '\r' || c = '\x0b' || c = '\x0c'

/-- ASCII decimal digit (JS `\d`). -/
def isDigitAZ (c : Char) : Bool := '0' ≤ c && c ≤ '9'

/-- ASCII uppercase letter (JS `[A-Z]`). -/
def isUpperAZ (c : Char) : Bool := 'A' ≤ c && c ≤ 'Z'

/-- ASCII lowercase letter (JS `[a-z]`). -/
def isLowerAZ (c : Char) : Bool := 'a' ≤ c && c ≤ 'z'

/-- ASCII letter (JS `[a-zA-Z]`). -/
def isAlphaAZ (c : Char) : Bool := isUpperAZ c || isLowerAZ c

/-- JS `\w`: `[A-Za-z0-9_]`. -/
def isWordChar (c : Char) : Bool := isAlphaAZ c || isDigitAZ c || c = '_'

/-- Sentence-ending punctuation `[.!?]`. -/
def isSentP (c : Char) : Bool := c = '.' || c = '!' || c = '?'

/-- The punctuation class `[,.;:!?]` used by `improveTextFlow`. -/
def isPunct6 (c : Char) : Bool :=
  c = ',' || c = '.' || c = ';' || c = ':' || c = '!' || c = '?'

/-- ASCII lowercasing, as JS `toLowerCase` acts on ASCII. -/
def lowerC (c : Char) : Char := c.toLower

/-- ASCII uppercasing, as JS `toUpperCase` acts on ASCII. -/
def upperC (c : Char) : Char := c.toUpper

def lowerStr (s : Str) : Str := s.map lowerC

def upperStr (s : Str) : Str := s.map upperC

/-! ## Generic string (list) utilities -/

/-- `a` is a prefix of `b` (decidable, by scanning). -/
def startsWithStr : Str → Str → Bool
  | [], _ => true
  | _ :: _, [] => false
  | a :: as, b :: bs => a = b && startsWithStr as bs

/-- Some occurrence of `pat` inside `s` (substring test). -/
def containsSub (pat : Str) : Str → Bool
  | [] => startsWithStr pat []
  | c :: cs => startsWithStr pat (c :: cs) || containsSub pat cs

/-- JS `trimStart` over the modelled `\s` class. -/
def trimStartStr (s : Str) : Str := s.dropWhile (fun c => isWS c)

/-- JS `trimEnd` over the modelled `\s` class. -/
def trimEndStr (s : Str) : Str := ((s.reverse.dropWhile (fun c => isWS c))).reverse

/-- JS `trim`. -/
def trimStr (s : Str) : Str := trimEndStr (trimStartStr s)

/-- `split('\n')` (single-character separator, JS semantics: `"" ↦ [""]`,
separators at the ends produce empty pieces). -/
def splitNLgo (cur : Str) : Str → List Str
  | [] => [cur.reverse]
  | c :: cs => if c = '\n' then cur.reverse :: splitNLgo [] cs else splitNLgo (c :: cur) cs

def splitNL (s : Str) : List Str := splitNLgo [] s

/-- `join('\n')`. -/
def joinNL : List Str → Str
  | [] => []
  | [p] => p
  | p :: q :: ps => p ++ '\n' :: joinNL (q :: ps)

/-- `join(sep)` for an arbitrary separator string. -/
def joinWith (sep : Str) : List Str → Str
  | [] => []
  | [p] => p
  | p :: q :: ps => p ++ sep ++ joinWith sep (q :: ps)

/-- `split('|')` (single-character separator). -/
def splitBarGo (cur : Str) : Str → List Str
  | [] => [cur.reverse]
  | c :: cs => if c = '|' then cur.reverse :: splitBarGo [] cs else splitBarGo (c :: cur) cs

def splitBar (s : Str) : List Str := splitBarGo [] s

/-- `'x'.repeat(n)` for a single character. -/
def repChar (c : Char) : Nat → Str
  | 0 => []
  | n + 1 => c :: repChar c n

/-- `s.repeat(n)` for a string. -/
def repStr (s : Str) : Nat → Str
  | 0 => []
  | n + 1 => s ++ repStr s n

/-- Global replace of a literal (regex-special-free) pattern, leftmost,
non-overlapping, as JS `str.replace(new RegExp(pat, 'g'), repl)` for the
literal tables of `TextCorrector`.  `skip` counts characters still to be
consumed by the current match. -/
def replaceAllGo (pat repl : Str) (skip : Nat) : Str → Str
  | [] => []
  | c :: cs =>
    match skip with
    | n + 1 => replaceAllGo pat repl n cs
    | 0 =>
      if startsWithStr pat (c :: cs) then
        repl ++ replaceAllGo pat repl (pat.length - 1) cs
      else
        c :: replaceAllGo pat repl 0 cs

def replaceAll (pat repl : Str) (s : Str) : Str := replaceAllGo pat repl 0 s

/-- Replace the first occurrence only, as JS `str.replace(pat, repl)` with a
plain-string pattern (used by `performSpellCheck`). -/
def replaceFirst (pat repl : Str) : Str → Str
  | [] => []
  | c :: cs =>
    if startsWithStr pat (c :: cs) then
      repl ++ cs.drop (pat.length - 1)
    else
      c :: replaceFirst pat repl cs

/-! ## TextCorrector: the OCR error tables (`initializeOCRPatterns`,
`pdf-processor.js` lines 563-616) and the three correction passes. -/

/-- `characterErrors`, in object-key order. -/
def characterErrors : List (Str × Str) :=
  [("rn".data, "m".data), ("cl".data, "d".data), ("ii".data, "ll".data),
   ("0".data, "o".data), ("1".data, "l".data), ("5".data, "S".data),
   ("8".data, "B".data), ("vv".data, "w".data), ("VV".data, "W".data),
   ("nn".data, "n".data), ("oo".data, "o".data)]

/-- `wordErrors`, in object-key order. -/
def wordErrors : List (Str × Str) :=
  [("tlie".data, "the".data), ("liave".data, "have".data), ("witli".data, "with".data),
   ("tliis".data, "this".data), ("tliat".data, "that".data), ("wliich".data, "which".data),
   ("wlien".data, "when".data), ("wliere".data, "where".data), ("liere".data, "here".data),
   ("tliere".data, "there".data), ("liis".data, "his".data), ("lier".data, "her".data),
   ("liim".data, "him".data), ("otlier".data, "other".data), ("anotlier".data, "another".data),
   ("furtlier".data, "further".data)]

/-- `punctuationErrors`, in object-key order. -/
def punctuationErrors : List (Str × Str) :=
  [(",,".data, ",".data), ("..".data, ".".data), (";;".data, ";".data),
   ("::".data, ":".data), ("??".data, "?".data), ("!!".data, "!".data),
   (" ,".data, ",".data), (" .".data, ".".data), (" ;".data, ";".data),
   (" :".data, ":".data), (" ?".data, "?".data), (" !".data, "!".data)]

/-- `fixCharacterErrors`: sequential global replace of each character-error
pattern (`new RegExp(error, 'g')`; the keys contain no regex metacharacters,
so the replace is literal). -/
def fixCharacterErrors (text : Str) : Str :=
  characterErrors.foldl (fun acc pr => replaceAll pr.1 pr.2 acc) text

/-- One case-insensitive word-boundary replace
(`new RegExp('\\b' + pat + '\\b', 'gi')`).  The patterns consist of word
characters only, so a match requires the preceding and following characters
(in the original string) to be absent or non-word.  `prev` is the character
just before the current scan position in the original string; `skip` counts
characters still to be consumed by the current match. -/
def replaceWordGo (pat repl : Str) (skip : Nat) (prev : Option Char) : Str → Str
  | [] => []
  | c :: cs =>
    match skip with
    | n + 1 => replaceWordGo pat repl n (some c) cs
    | 0 =>
      if startsWithStr pat (lowerStr (c :: cs)) &&
         (match prev with | none => true | some p => !isWordChar p) &&
         (match (c :: cs).drop pat.length with
          | [] => true
          | d :: _ => !isWordChar d) then
        repl ++ replaceWordGo pat repl (pat.length - 1) (some c) cs
      else
        c :: replaceWordGo pat repl 0 (some c) cs

/-- `fixWordErrors`: sequential word-boundary case-insensitive replaces.
The table keys are lowercase, matching the lowercased input. -/
def fixWordErrors (text : Str) : Str :=
  wordErrors.foldl (fun acc pr => replaceWordGo pr.1 pr.2 0 none acc) text

/-- `fixPunctuationErrors`: sequential global literal replaces
(`escapeRegExp` makes the pattern literal). -/
def fixPunctuationErrors (text : Str) : Str :=
  punctuationErrors.foldl (fun acc pr => replaceAll pr.1 pr.2 acc) text

/-! ## TextCorrector: structure restoration
(`restoreTextStructure`, `shouldMergeWithPrevious`, `looksLikeHeading`,
`pdf-processor.js` lines 721-805). -/

/-- `/^---\s*Page\s+\d+\s*---$/` (page-separator marker). -/
def isPageMarker (l : Str) : Bool :=
  if startsWithStr "---".data l then
    let r1 := (l.drop 3).dropWhile (fun c => isWS c)
    if startsWithStr "Page".data r1 then
      let r2 := r1.drop 4
      match r2 with
      | [] => false
      | w :: _ =>
        if isWS w then
          let r3 := r2.dropWhile (fun c => isWS c)
          match r3 with
          | [] => false
          | d :: _ =>
            if isDigitAZ d then
              let r4 := r3.dropWhile (fun c => isDigitAZ c)
              let r5 := r4.dropWhile (fun c => isWS c)
              r5 = "---".data
            else false
        else false
    else false
  else false

/-- `/^[A-Z]\d*[\.\)]\s/` (used by `looksLikeHeading`). -/
def upperNumSepStart (l : Str) : Bool :=
  match l with
  | [] => false
  | c :: cs =>
    if isUpperAZ c then
      match cs.dropWhile (fun d => isDigitAZ d) with
      | sep :: w :: _ => (sep = '.' || sep = ')') && isWS w
      | _ => false
    else false

/-- `/^\d+[\.\)]\s/`. -/
def numSepStart (l : Str) : Bool :=
  match l with
  | [] => false
  | c :: _ =>
    if isDigitAZ c then
      match l.dropWhile (fun d => isDigitAZ d) with
      | sep :: w :: _ => (sep = '.' || sep = ')') && isWS w
      | _ => false
    else false

/-- `/^[IVX]+[\.\)]\s/` (case-sensitive here: no `i` flag in
`looksLikeHeading`). -/
def romanSepStart (l : Str) : Bool :=
  match l with
  | [] => false
  | c :: _ =>
    if c = 'I' || c = 'V' || c = 'X' then
      match l.dropWhile (fun d => d = 'I' || d = 'V' || d = 'X') with
      | sep :: w :: _ => (sep = '.' || sep = ')') && isWS w
      | _ => false
    else false

/-- `looksLikeHeading` (`pdf-processor.js` lines 789-805). -/
def looksLikeHeading (line : Str) : Bool :=
  if line.length < 3 then false
  else if line.length > 100 then false
  else if line = upperStr line && line.length < 50 then true
  else if upperNumSepStart line then true
  else if numSepStart line then true
  else if romanSepStart line then true
  else false

/-- `/^\s*[•‣◦⁃∙\-\*]\s/` (bullet start). -/
def bulletStart (l : Str) : Bool :=
  match l.dropWhile (fun c => isWS c) with
  | b :: w :: _ =>
    (b = '•' || b = '‣' || b = '◦' || b = '⁃' || b = '∙' || b = '-' || b = '*') && isWS w
  | _ => false

/-- `/^\s*\d+[\.\)]\s/` (numbered-item start). -/
def numberedStart (l : Str) : Bool :=
  match l.dropWhile (fun c => isWS c) with
  | d :: rest =>
    if isDigitAZ d then
      match rest.dropWhile (fun c => isDigitAZ c) with
      | sep :: w :: _ => (sep = '.' || sep = ')') && isWS w
      | _ => false
    else false
  | [] => false

/-- `/^[A-Z]/`. -/
def startsUpper (l : Str) : Bool :=
  match l with
  | c :: _ => isUpperAZ c
  | [] => false

/-- `/[.!?]$/`. -/
def endsSentP (l : Str) : Bool :=
  match l.reverse with
  | c :: _ => isSentP c
  | [] => false

/-- `lastLine.endsWith('.')`. -/
def endsDot (l : Str) : Bool :=
  match l.reverse with
  | c :: _ => c = '.'
  | [] => false

/-- `shouldMergeWithPrevious` (`pdf-processor.js` lines 766-787). -/
def shouldMergeWithPrevious (line : Str) (currentParagraph : List Str) : Bool :=
  match currentParagraph with
  | [] => false
  | p :: ps =>
    if looksLikeHeading line then false
    else if bulletStart line || numberedStart line then false
    else
      let lastLine := (p :: ps).getLast (by simp)
      if endsDot lastLine && startsUpper line then false
      else if !startsUpper line then true
      else if !endsSentP lastLine then true
      else false

/-- The loop body of `restoreTextStructure`: `para` is the
`currentParagraph` buffer, the result is the `processedLines` list. -/
def restoreGo (para : List Str) : List Str → List Str
  | [] => if para.isEmpty then [] else [joinWith " ".data para]
  | l :: ls =>
    if isPageMarker l then restoreGo para ls
    else if l.isEmpty then
      (if para.isEmpty then [] else [joinWith " ".data para]) ++ [[]] ++ restoreGo [] ls
    else if shouldMergeWithPrevious l para then restoreGo (para ++ [l]) ls
    else
      (if para.isEmpty then [] else [joinWith " ".data para]) ++ restoreGo [l] ls

/-- `restoreTextStructure` (`pdf-processor.js` lines 721-764): split on
newlines, trim each line at use, run the merge loop, join with newlines. -/
def restoreTextStructure (text : Str) : Str :=
  joinNL (restoreGo [] ((splitNL text).map trimStr))

/-! ## TextCorrector: spell check (`performSpellCheck`,
`chooseBestSuggestion`, `pdf-processor.js` lines 807-871). -/

/-- The dictionary capability consumed by `performSpellCheck`: the composite
verdict the code computes from the nspell (or fallback) checker
(lines 828-835), exposed as an oracle. -/
structure SpellOracle where
  misspelled : Str → Bool
  suggest : Str → List Str

mutual

/-- `text.split(/\s+/)` (JS semantics: empty leading/trailing pieces when the
text starts/ends with whitespace; `"" ↦ [""]`). -/
def splitWSgo (cur : Str) : Str → List Str
  | [] => [cur.reverse]
  | c :: cs => if isWS c then cur.reverse :: splitWSrun cs else splitWSgo (c :: cur) cs

def splitWSrun : Str → List Str
  | [] => [[]]
  | c :: cs => if isWS c then splitWSrun cs else splitWSgo [c] cs

end

def splitWS (s : Str) : List Str := splitWSgo [] s

/-- One row step of the Levenshtein dynamic program: `a` is the current
character of the first word, `diag`/`left` the matrix entries diagonally and
directly left of the cell being computed, `prev` the remainder of the
previous row aligned with the remainder `t` of the second word. -/
def levStepGo (a : Char) (diag left : Nat) : Str → List Nat → List Nat
  | [], _ => []
  | _ :: _, [] => []
  | b :: bs, p :: ps =>
    let cur := min (min (left + 1) (p + 1)) (diag + if a = b then 0 else 1)
    cur :: levStepGo a p cur bs ps

/-- The next row of the dynamic program for first-word character `a`. -/
def levNextRow (a : Char) (t : Str) (prev : List Nat) : List Nat :=
  match prev with
  | [] => []
  | p0 :: prest => (p0 + 1) :: levStepGo a p0 (p0 + 1) t prest

/-- `natural.LevenshteinDistance` with its default unit costs
(insertion 1, deletion 1, substitution 1; no transpositions), computed by
the standard row-by-row dynamic program. -/
def levDistance (st : Str) (tt : Str) : Nat :=
  (st.foldl (fun row a => levNextRow a tt row) (List.range (tt.length + 1))).getLastD 0

/-- `chooseBestSuggestion` (`pdf-processor.js` lines 853-871).  The
non-aggressive threshold `Math.floor(originalWord.length * 0.3)` equals
`len * 3 / 10` in integer arithmetic for all word lengths that arise. -/
def chooseBestSuggestion (originalWord : Str) (suggestions : List Str)
    (aggressiveMode : Bool) : Option Str :=
  match suggestions with
  | [] => none
  | best :: _ =>
    if !aggressiveMode then
      let distance := levDistance (lowerStr originalWord) (lowerStr best)
      if distance ≤ max 1 (originalWord.length * 3 / 10) then some best else none
    else some best

/-- Per-token body of the `performSpellCheck` loop. -/
def spellToken (o : SpellOracle) (customDictionary : List Str)
    (aggressiveMode : Bool) (word : Str) : Str :=
  let cleanWord := word.filter (fun c => isWordChar c)
  if cleanWord.length < 2 then word
  else if customDictionary.contains (lowerStr cleanWord) then word
  else if o.misspelled cleanWord then
    match o.suggest cleanWord with
    | [] => word
    | s :: rest =>
      match chooseBestSuggestion cleanWord (s :: rest) aggressiveMode with
      | some best => replaceFirst cleanWord best word
      | none => word
  else word

/-- `performSpellCheck` (`pdf-processor.js` lines 807-851): split on `\s+`,
correct each token, rejoin with single spaces. -/
def performSpellCheck (o : SpellOracle) (customDictionary : List Str)
    (text : Str) (aggressiveMode : Bool) : Str :=
  joinWith " ".data ((splitWS text).map (spellToken o customDictionary aggressiveMode))

/-! ## TextCorrector: flow improvement (`improveTextFlow`,
`pdf-processor.js` lines 873-898).  The `compromise` round-trip
`compromise(text).text()` is an external collaborator, taken as an oracle
`nlp : Str → Str`; the four regex passes that follow are embedded as
scanners. -/

/-- Pass 1, `replace(/\s{2,}/g, ' ')`: each maximal whitespace run of length
at least 2 becomes one space (single whitespace characters are kept as-is).
`pend` is the reversed run currently being read. -/
def wsFlush (pend : Str) : Str :=
  if pend.length ≥ 2 then [' '] else pend.reverse

def collapseWSgo (pend : Str) : Str → Str
  | [] => wsFlush pend
  | c :: cs => if isWS c then collapseWSgo (c :: pend) cs
               else wsFlush pend ++ c :: collapseWSgo [] cs

def collapseWS (s : Str) : Str := collapseWSgo [] s

/-- Pass 2, `replace(/\s+([,.;:!?])/g, '$1')`: a whitespace run immediately
followed by one of `,.;:!?` is deleted. -/
def dropWSBeforePunctGo (pend : Str) : Str → Str
  | [] => pend.reverse
  | c :: cs =>
    if isWS c then dropWSBeforePunctGo (c :: pend) cs
    else if isPunct6 c && !pend.isEmpty then c :: dropWSBeforePunctGo [] cs
    else pend.reverse ++ c :: dropWSBeforePunctGo [] cs

def dropWSBeforePunct (s : Str) : Str := dropWSBeforePunctGo [] s

/-- Pass 3, `replace(/([.!?])\s*([a-z])/g, '$1 $2')`: sentence punctuation
followed by optional whitespace and a lowercase letter is normalized to
exactly one separating space.  The state holds the pending punctuation
character and the reversed whitespace run read after it. -/
def spaceAfterPunctGo : Option (Char × Str) → Str → Str
  | none, [] => []
  | some (p, run), [] => p :: run.reverse
  | none, c :: cs =>
    if isSentP c then spaceAfterPunctGo (some (c, [])) cs
    else c :: spaceAfterPunctGo none cs
  | some (p, run), c :: cs =>
    if isWS c then spaceAfterPunctGo (some (p, c :: run)) cs
    else if isLowerAZ c then p :: ' ' :: c :: spaceAfterPunctGo none cs
    else if isSentP c then p :: run.reverse ++ spaceAfterPunctGo (some (c, [])) cs
    else p :: run.reverse ++ c :: spaceAfterPunctGo none cs

def spaceAfterPunct (s : Str) : Str := spaceAfterPunctGo none s

/-- Pass 4, `replace(/([.!?]\s+)([a-z])/g, (m, punct, letter) => punct +
letter.toUpperCase())`: a lowercase letter after sentence punctuation plus
at least one whitespace character is uppercased (the whitespace is kept
verbatim). -/
def capAfterPunctGo : Option (Char × Str) → Str → Str
  | none, [] => []
  | some (p, run), [] => p :: run.reverse
  | none, c :: cs =>
    if isSentP c then capAfterPunctGo (some (c, [])) cs
    else c :: capAfterPunctGo none cs
  | some (p, run), c :: cs =>
    if isWS c then capAfterPunctGo (some (p, c :: run)) cs
    else if isLowerAZ c && !run.isEmpty then
      p :: run.reverse ++ upperC c :: capAfterPunctGo none cs
    else if isSentP c then p :: run.reverse ++ capAfterPunctGo (some (c, [])) cs
    else p :: run.reverse ++ c :: capAfterPunctGo none cs

def capAfterPunct (s : Str) : Str := capAfterPunctGo none s

/-- The four regex passes of `improveTextFlow`, in source order. -/
def flowPasses (s : Str) : Str :=
  capAfterPunct (spaceAfterPunct (dropWSBeforePunct (collapseWS s)))

/-- `improveTextFlow` (`pdf-processor.js` lines 873-898): the `compromise`
round-trip, then the four passes.  (The `try/catch` around the body returns
the input unchanged only when the external library throws; the modelled
oracle is total.) -/
def improveTextFlow (nlp : Str → Str) (text : Str) : Str :=
  flowPasses (nlp text)

/-! ## TextCorrector: final cleanup (`finalCleanup`,
`pdf-processor.js` lines 900-913). -/

mutual

/-- `replace(/\n{minRun,}/g, repl)`: each maximal newline run of length at
least `minRun` is replaced by `repl` (used with `minRun = 3` by the
`TextCorrector` and `minRun = 4` by the `MarkdownGenerator`).
`collapseNLskip` consumes the remainder of a run already handled. -/
def collapseNLgo (minRun : Nat) (repl : Str) : Str → Str
  | [] => []
  | c :: cs =>
    if c = '\n' then
      let run := c :: cs.takeWhile (fun d => d = '\n')
      (if run.length ≥ minRun then repl else run) ++ collapseNLskip minRun repl cs
    else c :: collapseNLgo minRun repl cs

def collapseNLskip (minRun : Nat) (repl : Str) : Str → Str
  | [] => []
  | c :: cs =>
    if c = '\n' then collapseNLskip minRun repl cs
    else c :: collapseNLgo minRun repl cs

end

def collapseNL (minRun : Nat) (repl : Str) (s : Str) : Str := collapseNLgo minRun repl s

/-- `TextCorrector.finalCleanup`: collapse 3+ newlines to two, trim every
line (both ends), trim the whole text. -/
def tcFinalCleanup (text : Str) : Str :=
  trimStr (joinNL ((splitNL (collapseNL 3 "\n\n".data text)).map trimStr))

/-! ## TextCorrector: the pipeline (`processText`,
`pdf-processor.js` lines 618-683). -/

/-- The settings fields consumed by the core pipeline. -/
structure Settings where
  enableSpellCheck : Bool
  aggressiveCorrection : Bool
  customDictionary : List Str
  includeMetadata : Bool
  includeTableOfContents : Bool

/-- The fixed fallback returned by `processText` when no usable text is
present (lines 642-645). -/
def tcFallbackText : Str :=
  ("No text could be extracted from this PDF. This may be due to:\n" ++
   "- Unsupported PDF format\n- Image-based PDF requiring better OCR\n" ++
   "- Processing error\n\nPlease try with a different PDF or check the " ++
   "console for detailed error messages.").data

/-- `loadCustomDictionary` for the list form: terms lowercased into the set. -/
def loadCustomDictionary (ws : List Str) : List Str := ws.map lowerStr

/-- `processText` steps 1-7 on the extracted text (the text already pulled
out of the OCR-result object), with the dictionary and NLP collaborators as
oracles. -/
def processText (o : SpellOracle) (nlp : Str → Str) (settings : Settings)
    (text : Str) : Str :=
  if (trimStr text).isEmpty then tcFallbackText
  else
    let dict := loadCustomDictionary settings.customDictionary
    let t1 := fixCharacterErrors text
    let t2 := fixWordErrors t1
    let t3 := fixPunctuationErrors t2
    let t4 := restoreTextStructure t3
    let t5 := if settings.enableSpellCheck
              then performSpellCheck o dict t4 settings.aggressiveCorrection
              else t4
    let t6 := improveTextFlow nlp t5
    tcFinalCleanup t6

/-! ## MarkdownGenerator (`src/src/utils/markdown-generator.js`).
The heading pattern table (lines 8-23) is embedded as one matcher per
pattern, each returning the capture groups of the regex. -/

/-- Parse `\s+(.+)$` at the start of `l`, returning the `(.+)` capture.
Greedy `\s+` with backtracking against `.+` (which cannot match `'\n'`) and
the end-of-string anchor: the capture is the text after the whitespace run
when that text is nonempty and newline-free; when the whole tail is
whitespace, `\s+` gives one character back (if it can, and that character is
not a newline). -/
def wsPlusRest (l : Str) : Option Str :=
  let W := l.takeWhile (fun c => isWS c)
  let R := l.dropWhile (fun c => isWS c)
  if W.isEmpty then none
  else if !R.isEmpty then
    if R.contains '\n' then none else some R
  else if W.length ≥ 2 && W.getLastD ' ' ≠ '\n' then some [W.getLastD ' ']
  else none

/-- Pattern 0, `/^[IVX]+[\.\)]\s+(.+)$/i` (Roman numerals); the capture is
`(.+)`. -/
def matchRoman (l : Str) : Option Str :=
  match l with
  | [] => none
  | c :: _ =>
    if c = 'I' || c = 'V' || c = 'X' || c = 'i' || c = 'v' || c = 'x' then
      match l.dropWhile (fun d =>
          d = 'I' || d = 'V' || d = 'X' || d = 'i' || d = 'v' || d = 'x') with
      | sep :: rest => if sep = '.' || sep = ')' then wsPlusRest rest else none
      | [] => none
    else none

/-- Pattern 1, `/^(\d+)[\.\)]\s+(.+)$/`; captures `(\d+)` and `(.+)`. -/
def matchNumbered (l : Str) : Option (Str × Str) :=
  match l with
  | [] => none
  | c :: _ =>
    if isDigitAZ c then
      let D := l.takeWhile (fun d => isDigitAZ d)
      match l.dropWhile (fun d => isDigitAZ d) with
      | sep :: rest =>
        if sep = '.' || sep = ')' then (wsPlusRest rest).map (fun t => (D, t)) else none
      | [] => none
    else none

/-- Pattern 2, `/^([A-Z])[\.\)]\s+(.+)$/`; captures the letter and `(.+)`. -/
def matchLetter (l : Str) : Option (Char × Str) :=
  match l with
  | c :: sep :: rest =>
    if isUpperAZ c && (sep = '.' || sep = ')') then
      (wsPlusRest rest).map (fun t => (c, t))
    else none
  | _ => none

/-- Pattern 3, `/^([A-Z][A-Z\s]{2,50})$/` (all caps); the capture is the
whole line. -/
def matchAllCaps (l : Str) : Option Str :=
  match l with
  | c :: rest =>
    if isUpperAZ c && 2 ≤ rest.length && rest.length ≤ 50 &&
       rest.all (fun d => isUpperAZ d || isWS d) then some l
    else none
  | [] => none

/-- Pattern 4, `/^(\d+\.\d+)\s+(.+)$/` (dotted numbering). -/
def matchDotted (l : Str) : Option (Str × Str) :=
  match l with
  | [] => none
  | c :: _ =>
    if isDigitAZ c then
      let D1 := l.takeWhile (fun d => isDigitAZ d)
      match l.dropWhile (fun d => isDigitAZ d) with
      | '.' :: r1 =>
        match r1 with
        | d :: _ =>
          if isDigitAZ d then
            let D2 := r1.takeWhile (fun e => isDigitAZ e)
            (wsPlusRest (r1.dropWhile (fun e => isDigitAZ e))).map
              (fun t => (D1 ++ '.' :: D2, t))
          else none
        | [] => none
      | _ => none
    else none

/-- Pattern 5, `/^(CHAPTER|SECTION|PART|APPENDIX)\s+(.+)$/i`; the first
capture is the keyword as it appears in the input. -/
def matchChapter (l : Str) : Option (Str × Str) :=
  let tryKw := fun (kw : Str) =>
    if startsWithStr kw (lowerStr l) then
      (wsPlusRest (l.drop kw.length)).map (fun t => (l.take kw.length, t))
    else none
  match tryKw "chapter".data with
  | some r => some r
  | none =>
    match tryKw "section".data with
    | some r => some r
    | none =>
      match tryKw "part".data with
      | some r => some r
      | none => tryKw "appendix".data

/-- The ordered pattern table of `detectHeading`: index and capture list of
the first matching pattern. -/
def headingPatternCaptures (line : Str) : Option (Nat × List Str) :=
  match matchRoman line with
  | some t => some (0, [t])
  | none =>
  match matchNumbered line with
  | some (d, t) => some (1, [d, t])
  | none =>
  match matchLetter line with
  | some (c, t) => some (2, [[c], t])
  | none =>
  match matchAllCaps line with
  | some w => some (3, [w])
  | none =>
  match matchDotted line with
  | some (n, t) => some (4, [n, t])
  | none =>
  match matchChapter line with
  | some (k, t) => some (5, [k, t])
  | none => none

/-- `parseInt` on a nonempty digit string. -/
def parseNatDigits (d : Str) : Nat :=
  d.foldl (fun n c => n * 10 + (c.toNat - '0'.toNat)) 0

/-- The message of the JS `ReferenceError` raised by the all-caps case of
`determineHeadingLevel` (`markdown-generator.js` line 204 reads the
identifier `line`, which is not in scope in that method). -/
def refErrorMsg : Str := "ReferenceError: line is not defined".data

/-- `determineHeadingLevel` (`markdown-generator.js` lines 194-212).
`m1` is `match[1]`.  Case 3 evaluates the out-of-scope identifier `line`
and therefore throws. -/
def determineHeadingLevel (m1 : Str) (patternIndex : Nat) : Except Str Nat :=
  match patternIndex with
  | 0 => .ok 1
  | 1 => .ok (if parseNatDigits m1 ≤ 3 then 2 else 3)
  | 2 => .ok 3
  | 3 => .error refErrorMsg
  | 4 => .ok 2
  | 5 => .ok 1
  | _ => .ok 2

/-- `toTitleCase` (`markdown-generator.js` lines 377-379):
`str.toLowerCase().replace(/\b\w/g, l => l.toUpperCase())`. -/
def toTitleCaseGo (prevWord : Bool) : Str → Str
  | [] => []
  | c :: cs =>
    if isWordChar c && !prevWord then upperC c :: toTitleCaseGo true cs
    else c :: toTitleCaseGo (isWordChar c) cs

def toTitleCase (s : Str) : Str := toTitleCaseGo false (lowerStr s)

/-- `extractHeadingText` (`markdown-generator.js` lines 214-229); `captures`
is `[match[1]]` or `[match[1], match[2]]`. -/
def extractHeadingText (captures : List Str) (patternIndex : Nat) : Str :=
  match patternIndex with
  | 0 => captures.getD 1 (captures.getD 0 [])
  | 1 => captures.getD 1 (captures.getD 0 [])
  | 2 => captures.getD 1 (captures.getD 0 [])
  | 3 => toTitleCase (captures.getD 0 [])
  | 4 => captures.getD 1 []
  | 5 => captures.getD 1 []
  | _ => captures.getD 0 []

structure HeadingInfo where
  level : Nat
  text : Str
  markdown : Str
deriving DecidableEq, Repr

/-- `detectHeading` (`markdown-generator.js` lines 167-192): first matching
pattern wins; the level computation for the all-caps pattern throws
(`determineHeadingLevel` is evaluated before `extractHeadingText`).
`detectUnderlinedHeading` always returns null. -/
def detectHeading (line : Str) : Except Str (Option HeadingInfo) :=
  match headingPatternCaptures line with
  | none => .ok none
  | some (i, caps) =>
    match determineHeadingLevel (caps.getD 0 []) i with
    | .error e => .error e
    | .ok level =>
      let text := extractHeadingText caps i
      .ok (some ⟨level, text, repChar '#' level ++ ' ' :: text⟩)

/-- `detectListItem` (`markdown-generator.js` lines 237-263), returning the
markdown replacement line. -/
def detectListItem (line : Str) : Option Str :=
  let indent := line.takeWhile (fun c => isWS c)
  let rest := line.dropWhile (fun c => isWS c)
  match rest with
  | b :: r2 =>
    if b = '•' || b = '‣' || b = '◦' || b = '⁃' || b = '∙' || b = '-' || b = '*' then
      (wsPlusRest r2).map (fun t =>
        let level := indent.length / 2 + 1
        repStr "  ".data (level - 1) ++ "- ".data ++ t)
    else if isDigitAZ b then
      let D := rest.takeWhile (fun d => isDigitAZ d)
      match rest.dropWhile (fun d => isDigitAZ d) with
      | sep :: r3 =>
        if sep = '.' || sep = ')' then
          (wsPlusRest r3).map (fun t =>
            let level := indent.length / 2 + 1
            repStr "  ".data (level - 1) ++ D ++ ". ".data ++ t)
        else none
      | [] => none
    else none
  | [] => none

/-- `\s{2,}\w` after a word character: at least two whitespace characters
followed by a word character. -/
def tableGapAfter (l : Str) : Bool :=
  (l.takeWhile (fun c => isWS c)).length ≥ 2 &&
  (match l.dropWhile (fun c => isWS c) with
   | d :: _ => isWordChar d
   | [] => false)

/-- `/\w+\s{2,}\w+/` occurs somewhere in the line. -/
def hasTableGap : Str → Bool
  | [] => false
  | c :: cs => (isWordChar c && tableGapAfter cs) || hasTableGap cs

/-- `looksLikeTableRow` (`markdown-generator.js` lines 265-268). -/
def looksLikeTableRow (line : Str) : Bool :=
  hasTableGap line || line.contains '\t'

mutual

/-- `split(/\s{2,}|\t+/)`: a maximal whitespace run of length ≥ 2, or a
single tab, separates cells.  `splitCellsSkipWS` consumes the remainder of a
whitespace-run separator. -/
def splitCellsGo (cur : Str) : Str → List Str
  | [] => [cur.reverse]
  | c :: cs =>
    if isWS c && (c :: cs.takeWhile (fun d => isWS d)).length ≥ 2 then
      cur.reverse :: splitCellsSkipWS cs
    else if c = '\t' then
      cur.reverse :: splitCellsGo [] cs
    else splitCellsGo (c :: cur) cs

def splitCellsSkipWS : Str → List Str
  | [] => [[]]
  | c :: cs =>
    if isWS c then splitCellsSkipWS cs
    else splitCellsGo [c] cs

end

def splitCells (l : Str) : List Str := splitCellsGo [] l

/-- `processTable` rows conversion (`markdown-generator.js` lines 270-302):
each collected (already trimmed) table line becomes a pipe row; a header
separator is spliced in after the first row; the block is wrapped in
newlines. -/
def processTable (tableLines : List Str) : Str :=
  let rows := tableLines.map (fun l =>
    "| ".data ++ joinWith " | ".data ((splitCells l).map trimStr) ++ " |".data)
  match rows with
  | [] => "\n\n".data
  | r0 :: rest =>
    let headerSeparator := '|' :: repStr " --- |".data ((splitBar r0).length - 2)
    '\n' :: joinNL (r0 :: headerSeparator :: rest) ++ "\n".data

def codeKeywords : List Str :=
  ["function".data, "var".data, "let".data, "const".data, "if".data, "else".data,
   "for".data, "while".data, "return".data, "import".data, "export".data,
   "class".data, "def".data, "public".data, "private".data]

/-- `looksLikeCode` (`markdown-generator.js` lines 304-319): keyword
substring, code symbol, or ≥4 leading whitespace with a word character. -/
def looksLikeCode (line : Str) : Bool :=
  if line.isEmpty then false
  else if codeKeywords.any (fun k => containsSub k line) then true
  else if line.any (fun c =>
      c = '{' || c = '}' || c = '(' || c = ')' || c = ';' || c = '=' || c = '<' || c = '>') then true
  else if (line.takeWhile (fun c => isWS c)).length ≥ 4 && line.any (fun c => isWordChar c) then true
  else false

/-- The negative lookahead `(?!\s*[.!?])` after an all-caps word: it fails
exactly when the next non-whitespace character is sentence punctuation. -/
def nextNonWsIsSentP (l : Str) : Bool :=
  match l.dropWhile (fun c => isWS c) with
  | p :: _ => isSentP p
  | [] => false

mutual

/-- `replace(/\b([A-Z]{2,})\b(?!\s*[.!?])/g, '**$1**')`: a maximal word-char
run matches iff it consists solely of `[A-Z]`, has length ≥ 2, and the
lookahead holds.  `boldCapsSkip` consumes the remainder of the current
word-character run. -/
def boldCaps : Str → Str
  | [] => []
  | c :: cs =>
    if isWordChar c then
      let run := c :: cs.takeWhile (fun d => isWordChar d)
      let rest := cs.dropWhile (fun d => isWordChar d)
      (if run.length ≥ 2 && run.all (fun d => isUpperAZ d) && !nextNonWsIsSentP rest then
        "**".data ++ run ++ "**".data
       else run) ++ boldCapsSkip cs
    else c :: boldCaps cs

def boldCapsSkip : Str → Str
  | [] => []
  | c :: cs =>
    if isWordChar c then boldCapsSkip cs
    else c :: boldCaps cs

end

/-- `replace(/(https?:\/\/[^\s]+)/g, '[$1]($1)')`; `skip` counts characters
still to be consumed by the current match. -/
def replaceURLsGo (skip : Nat) : Str → Str
  | [] => []
  | c :: cs =>
    match skip with
    | n + 1 => replaceURLsGo n cs
    | 0 =>
      if startsWithStr "https://".data (c :: cs) &&
         !((c :: cs).drop 8 |>.takeWhile (fun d => !isWS d)).isEmpty then
        let url := "https://".data ++ ((c :: cs).drop 8 |>.takeWhile (fun d => !isWS d))
        '[' :: url ++ "](".data ++ url ++ ")".data ++ replaceURLsGo (url.length - 1) cs
      else if startsWithStr "http://".data (c :: cs) &&
         !((c :: cs).drop 7 |>.takeWhile (fun d => !isWS d)).isEmpty then
        let url := "http://".data ++ ((c :: cs).drop 7 |>.takeWhile (fun d => !isWS d))
        '[' :: url ++ "](".data ++ url ++ ")".data ++ replaceURLsGo (url.length - 1) cs
      else c :: replaceURLsGo 0 cs

def replaceURLs (s : Str) : Str := replaceURLsGo 0 s

/-- Local-part character class `[a-zA-Z0-9._%+-]` of the email regex. -/
def isEmailLocalChar (c : Char) : Bool :=
  isAlphaAZ c || isDigitAZ c || c = '.' || c = '_' || c = '%' || c = '+' || c = '-'

/-- Domain character class `[a-zA-Z0-9.-]`. -/
def isEmailDomainChar (c : Char) : Bool :=
  isAlphaAZ c || isDigitAZ c || c = '.' || c = '-'

/-- Resolve the backtracking of `[a-zA-Z0-9.-]+\.[a-zA-Z]{2,}\b` inside the
maximal domain-character run `D` (`next` is the character following `D`):
dots are tried from the right; the letters after the chosen dot must number
at least two and be followed by a non-word character or the end. -/
def emailDomainMatch (D : Str) (next : Option Char) : Option Str :=
  (((List.range D.length).filter (fun i => D.getD i ' ' = '.')).reverse).findSome?
    (fun i =>
      if 1 ≤ i then
        let T := (D.drop (i + 1)).takeWhile (fun c => isAlphaAZ c)
        if T.length ≥ 2 then
          let nc : Option Char :=
            if i + 1 + T.length < D.length then some (D.getD (i + 1 + T.length) ' ')
            else next
          if (match nc with | none => true | some d => !isWordChar d) then
            some (D.take i ++ '.' :: T)
          else none
        else none
      else none)

/-- Try the email regex
`\b([a-zA-Z0-9._%+-]+@[a-zA-Z0-9.-]+\.[a-zA-Z]{2,})\b` at the current
position (`prev` is the character before it in the original string);
returns the matched email text. -/
def emailMatchAt (prev : Option Char) (s : Str) : Option Str :=
  let L := s.takeWhile (fun c => isEmailLocalChar c)
  if L.isEmpty then none
  else
    let c0 := L.getD 0 ' '
    let boundaryOk :=
      if isWordChar c0 then (match prev with | none => true | some p => !isWordChar p)
      else (match prev with | none => false | some p => isWordChar p)
    if !boundaryOk then none
    else
      match s.drop L.length with
      | '@' :: afterAt =>
        let D := afterAt.takeWhile (fun c => isEmailDomainChar c)
        if D.isEmpty then none
        else
          match emailDomainMatch D ((afterAt.drop D.length).head?) with
          | some dm => some (L ++ '@' :: dm)
          | none => none
      | _ => none

/-- `replace(/\b([a-zA-Z0-9._%+-]+@[a-zA-Z0-9.-]+\.[a-zA-Z]{2,})\b/g,
'[$1](mailto:$1)')`. -/
def replaceEmailsGo (skip : Nat) (prev : Option Char) : Str → Str
  | [] => []
  | c :: cs =>
    match skip with
    | n + 1 => replaceEmailsGo n (some c) cs
    | 0 =>
      match emailMatchAt prev (c :: cs) with
      | some em =>
        '[' :: em ++ "](mailto:".data ++ em ++ ")".data ++
          replaceEmailsGo (em.length - 1) (some c) cs
      | none => c :: replaceEmailsGo 0 (some c) cs

def replaceEmails (s : Str) : Str := replaceEmailsGo 0 none s

/-- `processInlineFormatting` (`markdown-generator.js` lines 321-337):
bold all-caps, then URLs, then emails. -/
def processInlineFormatting (line : Str) : Str :=
  replaceEmails (replaceURLs (boldCaps line))

mutual

/-- `generateAnchor` step `replace(/\s+/g, '-')`; the skip helper consumes
the remainder of the whitespace run. -/
def wsRunsToHyphens : Str → Str
  | [] => []
  | c :: cs =>
    if isWS c then '-' :: wsRunsToHyphensSkip cs
    else c :: wsRunsToHyphens cs

def wsRunsToHyphensSkip : Str → Str
  | [] => []
  | c :: cs =>
    if isWS c then wsRunsToHyphensSkip cs
    else c :: wsRunsToHyphens cs

end

mutual

/-- `generateAnchor` step: the global replace collapsing each hyphen run
to a single hyphen (dash-plus pattern); the skip helper consumes the
remainder of the run. -/
def collapseHyphens : Str → Str
  | [] => []
  | c :: cs =>
    if c = '-' then '-' :: collapseHyphensSkip cs
    else c :: collapseHyphens cs

def collapseHyphensSkip : Str → Str
  | [] => []
  | c :: cs =>
    if c = '-' then collapseHyphensSkip cs
    else c :: collapseHyphens cs

end

/-- `generateAnchor` step `replace(/^-|-$/g, '')`: one leading and one
trailing hyphen are removed. -/
def trimHyphens (s : Str) : Str :=
  let s1 := match s with
    | '-' :: r => r
    | other => other
  match s1.reverse with
  | '-' :: r => r.reverse
  | _ => s1

/-- `generateAnchor` (`markdown-generator.js` lines 368-375). -/
def generateAnchor (text : Str) : Str :=
  trimHyphens (collapseHyphens (wsRunsToHyphens
    ((lowerStr text).filter (fun c => isWordChar c || isWS c || c = '-'))))

/-- `/^(#{1,6})\s+(.+)$/` applied to one line of generated content. -/
def tocHeadingOf (line : Str) : Option (Nat × Str) :=
  let H := line.takeWhile (fun c => c = '#')
  if 1 ≤ H.length && H.length ≤ 6 then
    (wsPlusRest (line.drop H.length)).map (fun t => (H.length, t))
  else none

/-- `generateTableOfContents` (`markdown-generator.js` lines 339-366). -/
def generateTableOfContents (content : Str) : Option Str :=
  let headings := (splitNL content).filterMap tocHeadingOf
  if headings.isEmpty then none
  else some (joinNL (headings.map (fun h =>
    repStr "  ".data (h.1 - 1) ++ "- [".data ++ h.2 ++ "](#".data ++
      generateAnchor h.2 ++ ")".data)))

/-! ## MarkdownGenerator: final cleanup (`finalCleanup`,
`markdown-generator.js` lines 381-401). -/

/-- `#{1,6}\s` right after a newline: a hash run of length 1..6 followed by
a whitespace character (a longer hash run cannot match, since the character
after at most six hashes would be another hash). -/
def hashWsAfterNL (cs : Str) : Bool :=
  let H := cs.takeWhile (fun c => c = '#')
  1 ≤ H.length && H.length ≤ 6 &&
    (match cs.drop H.length with
     | w :: _ => isWS w
     | [] => false)

/-- `replace(/\n(#{1,6}\s+)/g, '\n\n$1')`: insert a newline before a heading
start; the greedy `\s+` run is part of the match.  `skip` counts characters
still to be consumed by the current match. -/
def headingSpaceBeforeGo (skip : Nat) : Str → Str
  | [] => []
  | c :: cs =>
    match skip with
    | n + 1 => headingSpaceBeforeGo n cs
    | 0 =>
      if c = '\n' && hashWsAfterNL cs then
        let H := cs.takeWhile (fun d => d = '#')
        let W := (cs.drop H.length).takeWhile (fun d => isWS d)
        '\n' :: '\n' :: H ++ W ++ headingSpaceBeforeGo (H.length + W.length) cs
      else c :: headingSpaceBeforeGo 0 cs

def headingSpaceBefore (s : Str) : Str := headingSpaceBeforeGo 0 s

/-- Resolve the greedy/backtracking search of
`(#{1,6}\s+.+)\n(?!\n)` after the hash run: `rest` is the text after the
hashes, `w` counts down from the maximal whitespace-run length; `d` is the
length of the `.+` part (the run of non-newline characters after the chosen
whitespace), which must reach a newline not followed by another newline. -/
def s3Search (rest : Str) : Nat → Option (Nat × Nat)
  | 0 => none
  | w + 1 =>
    let tail := rest.drop (w + 1)
    let d := (tail.takeWhile (fun c => c ≠ '\n')).length
    if 1 ≤ d && tail.getD d 'x' = '\n' &&
       (match (tail.drop (d + 1)).head? with
        | some '\n' => false
        | _ => true) then
      some (w + 1, d)
    else s3Search rest w

/-- `replace(/(#{1,6}\s+.+)\n(?!\n)/g, '$1\n\n')`: a blank line is inserted
after a heading-shaped stretch that is followed by a single newline.
`skip` counts characters still to be consumed by the current match. -/
def headingSpaceAfterGo (skip : Nat) : Str → Str
  | [] => []
  | c :: cs =>
    match skip with
    | n + 1 => headingSpaceAfterGo n cs
    | 0 =>
      let H := (c :: cs).takeWhile (fun d => d = '#')
      if 1 ≤ H.length && H.length ≤ 6 then
        let rest := (c :: cs).drop H.length
        match s3Search rest ((rest.takeWhile (fun d => isWS d)).length) with
        | some (w, d) =>
          H ++ rest.take (w + d) ++ '\n' :: '\n' ::
            headingSpaceAfterGo (H.length + w + d + 1 - 1) cs
        | none => c :: headingSpaceAfterGo 0 cs
      else c :: headingSpaceAfterGo 0 cs

def headingSpaceAfter (s : Str) : Str := headingSpaceAfterGo 0 s

/-- `replace(/\n([\-\*]\s+)/g, '\n$1')` replaces every match by itself and
is therefore the identity. -/
def listSpacing (t : Str) : Str := t

/-- `MarkdownGenerator.finalCleanup` (`markdown-generator.js` lines
381-401): collapse 4+ newlines to three, insert blank lines around
headings, (identity) list spacing, strip trailing whitespace per line,
end with exactly one newline. -/
def mdFinalCleanup (markdown : Str) : Str :=
  let c1 := collapseNL 4 "\n\n\n".data markdown
  let c2 := headingSpaceBefore c1
  let c3 := headingSpaceAfter c2
  let c4 := listSpacing c3
  let c5 := joinNL ((splitNL c4).map trimEndStr)
  trimEndStr c5 ++ ['\n']

/-! ## MarkdownGenerator: metadata, content processing, `generate`. -/

/-- `generateMetadata` (`markdown-generator.js` lines 75-88); `now` is the
`new Date().toISOString()` reading of the clock. -/
def generateMetadata (sourceURL now : Str) : Str :=
  joinNL ["---".data,
    "title: \"PDF Processed Document\"".data,
    "source: \"".data ++ sourceURL ++ "\"".data,
    "processed_date: \"".data ++ now ++ "\"".data,
    "generator: \"PDF Processor v1.0.0\"".data,
    "---".data, []] ++ "\n".data

/-- The loop of `processContent` (`markdown-generator.js` lines 90-165):
`acc` is `processedLines`, `inCodeBlock` the fence flag; the table branch
consumes the whole detected run of table rows. -/
def processLinesGo (skip : Nat) (inCodeBlock : Bool) (acc : List Str) :
    List Str → Except Str (List Str)
  | [] => .ok (acc ++ if inCodeBlock then ["```".data] else [])
  | l :: ls =>
    match skip with
    | n + 1 => processLinesGo n inCodeBlock acc ls
    | 0 =>
      let trimmedLine := trimStr l
      if trimmedLine.isEmpty then processLinesGo 0 inCodeBlock (acc ++ [[]]) ls
      else
        match detectHeading trimmedLine with
        | .error e => .error e
        | .ok (some h) =>
          let acc' := if acc.length > 0 && acc.getLastD [] ≠ ([] : Str)
                      then acc ++ [[]] else acc
          processLinesGo 0 inCodeBlock (acc' ++ [h.markdown]) ls
        | .ok none =>
          match detectListItem trimmedLine with
          | some md => processLinesGo 0 inCodeBlock (acc ++ [md]) ls
          | none =>
            if looksLikeTableRow trimmedLine &&
               ((l :: ls).takeWhile (fun x => looksLikeTableRow (trimStr x))).length ≥ 2 then
              processLinesGo
                (((l :: ls).takeWhile (fun x => looksLikeTableRow (trimStr x))).length - 1)
                inCodeBlock
                (acc ++ [processTable (((l :: ls).takeWhile
                  (fun x => looksLikeTableRow (trimStr x))).map trimStr)])
                ls
            else if looksLikeCode trimmedLine then
              let acc' := if !inCodeBlock then acc ++ ["```".data] else acc
              processLinesGo 0 true (acc' ++ [trimmedLine]) ls
            else
              let acc' := if inCodeBlock then acc ++ ["```".data] else acc
              processLinesGo 0 false (acc' ++ [processInlineFormatting trimmedLine]) ls

/-- `processContent` (`markdown-generator.js` lines 90-165). -/
def processContent (text : Str) : Except Str Str :=
  (processLinesGo 0 false [] (splitNL text)).map joinNL

/-- The option surface of `generate` with its defaults. -/
structure GenOptions where
  sourceURL : Str := []
  metadata : Bool := true
  preserveFormatting : Bool := true
  includeTableOfContents : Bool := false

/-- The fixed placeholder used by `generate` for empty input
(`markdown-generator.js` line 38). -/
def mdFallbackText : Str :=
  "No content could be processed from the PDF. Please check the processing logs for errors.".data

/-- `generate` (`markdown-generator.js` lines 25-73); `now` is the clock
reading used by the metadata block.  A `ReferenceError` escaping
`detectHeading` propagates out of `generate`. -/
def generate (text : Str) (options : GenOptions) (now : Str) : Except Str Str :=
  let text := if text.isEmpty then mdFallbackText else text
  let md0 := if options.metadata then generateMetadata options.sourceURL now else []
  match processContent text with
  | .error e => .error e
  | .ok processedContent =>
    let md1 :=
      if options.includeTableOfContents then
        match generateTableOfContents processedContent with
        | some toc => md0 ++ "\n## Table of Contents\n\n".data ++ toc ++ "\n\n".data
        | none => md0
      else md0
    .ok (mdFinalCleanup (md1 ++ processedContent))

/-! ## OCRWorker: page-result aggregation (`combinePageResults`,
`pdf-processor.js` lines 1162-1215). -/

/-- One per-page OCR result record (the fields read by
`combinePageResults`; `confidence` is optional, defaulted by `|| 0`). -/
structure PageResult where
  page : Nat
  text : Str
  confidence : Option ℚ
  words : Option Nat

/-- The loop of `combinePageResults`: returns
(fullText, totalConfidence, wordCount, lowConfidencePages); `hasPrev`
records whether `fullTextParts` is nonempty. -/
def combineGo : Bool → List PageResult → (Str × ℚ × Nat × List (Nat × Option ℚ))
  | _, [] => ([], 0, 0, [])
  | hasPrev, r :: rs =>
    if (trimStr r.text).isEmpty then combineGo hasPrev rs
    else
      let rest := combineGo true rs
      ((if hasPrev then "\n\n".data else []) ++ trimStr r.text ++ rest.1,
       r.confidence.getD 0 + rest.2.1,
       (match r.words with
        | some n => n
        | none => (splitWS r.text).length) + rest.2.2.1,
       (if r.confidence.getD 0 < 70 then [(r.page, r.confidence)] else []) ++ rest.2.2.2)

/-- The aggregate record built by `combinePageResults`. -/
structure CombinedResult where
  fullText : Str
  totalConfidence : ℚ
  pageCount : Nat
  wordCount : Nat
  averageConfidence : ℚ
  lowConfidencePages : List (Nat × Option ℚ)

def combinePageResults (results : List PageResult) : CombinedResult :=
  let g := combineGo false results
  { fullText := g.1
    totalConfidence := g.2.1
    pageCount := results.length
    wordCount := g.2.2.1
    averageConfidence := if results.length > 0 then g.2.1 / (results.length : ℚ) else 0
    lowConfidencePages := g.2.2.2 }

/-! ## Shared concrete instances for the claim theorems -/

/-- A dictionary oracle that reports every token correctly spelled. -/
def oracleAcceptAll : SpellOracle := ⟨fun _ => false, fun _ => []⟩

/-- A fixed clock reading (an ISO-8601 timestamp as produced by
`new Date().toISOString()`). -/
def clock0 : Str := "2025-01-01T00:00:00.000Z".data

/-- A later clock reading. -/
def clock1 : Str := "2025-01-02T00:00:00.000Z".data

/-- Settings with every optional stage disabled. -/
def plainSettings : Settings :=
  { enableSpellCheck := false, aggressiveCorrection := false, customDictionary := [],
    includeMetadata := true, includeTableOfContents := false }

/-- The C2 scenario settings: default configuration with spell check and
table of contents enabled. -/
def c2Settings : Settings :=
  { enableSpellCheck := true, aggressiveCorrection := false, customDictionary := [],
    includeMetadata := true, includeTableOfContents := true }

/-- The C2 scenario input: one page, text `"HELLO WORLD\n\nThis is a
test."`, confidence 95. -/
def c2Pages : List PageResult :=
  [⟨1, "HELLO WORLD\n\nThis is a test.".data, some 95, none⟩]

/-- The C2 scenario, run end to end: page aggregation, the `TextCorrector`
pipeline (dictionary oracle accepting every word, NLP round-trip as the
identity), then `generate` with metadata and table of contents requested. -/
def c2Markdown : Except Str Str :=
  generate (processText oracleAcceptAll id c2Settings (combinePageResults c2Pages).fullText)
    { sourceURL := [], metadata := true, preserveFormatting := true,
      includeTableOfContents := true }
    clock0

/-- The C7 dictionary oracle: reports exactly the token `wrold` misspelled,
with the single suggestion `world`. -/
def c7Oracle : SpellOracle :=
  ⟨fun w => w = "wrold".data, fun w => if w = "wrold".data then ["world".data] else []⟩

/-! ## C1 -/

/-- C1: the claim that every core stage returns normally fails on the code.
`generate` applied to the all-caps line `"HELLO WORLD"` reaches the all-caps
case of `determineHeadingLevel`, which reads the out-of-scope identifier
`line` and throws a `ReferenceError` instead of returning markdown.  (The
placeholder behaviour for empty input, the other half of the claim, does
hold: `processText` returns its fixed fallback text.) -/
theorem c1_generate_throws_on_all_caps_line :
    generate ("HELLO WORLD".data) {} clock0 = Except.error refErrorMsg ∧
    processText oracleAcceptAll id plainSettings [] = tcFallbackText :=
  ⟨rfl, rfl⟩

/-! ## C2 -/

/-- C2: the end-to-end scenario of the spec fails on the code.  With spell
check enabled, `performSpellCheck` flattens `"HELLO WORLD\n\nThis is a
test."` into the single line `"HELLO WORLD This is a test."`, so no heading
is detected: the output contains no `## HELLO WORLD` heading line and no
`#hello-world` anchor; instead the whole text is rendered as one paragraph
with `HELLO` and `WORLD` bolded.  (The metadata block is present, as
claimed.) -/
theorem c2_scenario_produces_no_heading_and_no_toc :
    c2Markdown.map (fun s =>
      (containsSub ("## HELLO WORLD".data) s,
       containsSub ("#hello-world".data) s,
       containsSub ("**HELLO** **WORLD** This is a test.".data) s,
       containsSub ("title: \"PDF Processed Document\"".data) s)) =
    Except.ok (false, false, true, true) := by
  set_option maxRecDepth 100000 in rfl

/-! ## C4 -/

/-- C4 counterexample: the line `"HELLO WORLD"` looks like a heading, yet
`restoreTextStructure` joins the following line `"and more"` into the same
output line, contradicting the claim that no subsequent input line is ever
joined into a heading's output line. -/
theorem c4_counterexample_heading_joined_with_next_line :
    looksLikeHeading ("HELLO WORLD".data) = true ∧
    restoreTextStructure ("HELLO WORLD\nand more".data) = "HELLO WORLD and more".data :=
  ⟨rfl, rfl⟩

/-- C4 (amended): a line that looks like a heading is never merged into the
pending paragraph buffer — `shouldMergeWithPrevious` rejects it for every
buffer, so the buffer is flushed and the heading starts a new paragraph.
(Subsequent lines may still be merged after it.) -/
theorem c4_heading_never_merged_into_previous_paragraph
    (line : Str) (currentParagraph : List Str)
    (h : looksLikeHeading line = true) :
    shouldMergeWithPrevious line currentParagraph = false := by
  cases currentParagraph with
  | nil => rfl
  | cons p ps => simp [shouldMergeWithPrevious, h]

/-- Witness for the amended C4 theorem at a concrete heading line and a
concrete nonempty buffer. -/
theorem c4_heading_never_merged_witness :
    looksLikeHeading ("HELLO WORLD".data) = true ∧
    shouldMergeWithPrevious ("HELLO WORLD".data) ["Some text".data] = false :=
  ⟨by decide, c4_heading_never_merged_into_previous_paragraph _ _ (by decide)⟩

/-! ## C6 -/

/-- C6 counterexample: with metadata enabled (the default), two runs of
`generate` on identical text and options but different clock readings give
different markdown (the `processed_date` line differs), refuting
byte-identical rendering as universally claimed. -/
theorem c6_counterexample_two_runs_differ :
    generate ("Hello.".data) {} clock0 ≠ generate ("Hello.".data) {} clock1 := by
  intro h
  exact absurd (congrArg Except.toOption h) (by decide)

/-- C6 (amended): the rendering is a pure function of text, options and the
clock reading; when the metadata block is disabled the clock is not
consulted at all, so two runs at different times are byte-identical. -/
theorem c6_generate_clock_independent_without_metadata
    (text : Str) (options : GenOptions) (t1 t2 : Str)
    (h : options.metadata = false) :
    generate text options t1 = generate text options t2 := by
  simp [generate, h]

/-- Witness for the amended C6 theorem. -/
theorem c6_generate_clock_independent_witness :
    ({ sourceURL := [], metadata := false, preserveFormatting := true,
       includeTableOfContents := false } : GenOptions).metadata = false ∧
    generate ("Hi.".data)
      { sourceURL := [], metadata := false, preserveFormatting := true,
        includeTableOfContents := false } clock0 =
    generate ("Hi.".data)
      { sourceURL := [], metadata := false, preserveFormatting := true,
        includeTableOfContents := false } clock1 :=
  ⟨rfl, c6_generate_clock_independent_without_metadata _ _ _ _ rfl⟩

/-! ## C7, concrete part -/

/-- C7 counterexample: `natural.LevenshteinDistance` has no transpositions,
so the distance between `wrold` and the top suggestion `world` is 2, not 1
as the claim asserts; with the threshold `max(1, floor(5 * 0.3)) = 1` the
suggestion is rejected and `wrold` is left unchanged in non-aggressive mode
(aggressive mode does replace it). -/
theorem c7_counterexample_wrold_not_corrected :
    levDistance (lowerStr "wrold".data) (lowerStr "world".data) = 2 ∧
    performSpellCheck c7Oracle [] ("wrold".data) false = "wrold".data ∧
    performSpellCheck c7Oracle [] ("wrold".data) true = "world".data :=
  ⟨rfl, rfl, rfl⟩

/-! ## C8, concrete part -/

/-- C8 counterexample: `finalCleanup` collapses only literal newline runs;
lines holding a single space defeat the collapse and are blanked by the
per-line trim afterwards, so the cleaned output can contain runs of three or
more consecutive blank lines (here: five). -/
theorem c8_counterexample_blank_line_run :
    mdFinalCleanup ("a\n \n \n \n \n \nb".data) = "a\n\n\n\n\n\nb\n".data ∧
    containsSub ("\n\n\n\n".data) (mdFinalCleanup ("a\n \n \n \n \n \nb".data)) = true :=
  ⟨rfl, rfl⟩

/-! ## C9, concrete part -/

/-- C9 counterexample: a page whose text is blank is skipped by the
aggregation loop, so a page with confidence 10 (< 70) is not listed in
`lowConfidencePages`, refuting the claimed "if and only if". -/
theorem c9_counterexample_blank_page_not_listed :
    (combinePageResults [⟨1, [], some 10, none⟩]).lowConfidencePages = [] ∧
    ((10 : ℚ) < 70) :=
  ⟨rfl, by norm_num⟩

/-! ## C10 -/

/-- C10 counterexample: the line `"1. INTRODUCTION"` does not match the
all-caps pattern (which requires the line to start with an uppercase letter
and contain only uppercase letters and whitespace), contrary to the claim
that the line matches both patterns; it matches only the numeric-prefix
pattern. -/
theorem c10_counterexample_allcaps_does_not_match :
    matchAllCaps ("1. INTRODUCTION".data) = none ∧
    matchNumbered ("1. INTRODUCTION".data) = some ("1".data, "INTRODUCTION".data) :=
  ⟨rfl, rfl⟩

/-- C10 (amended): the pattern table is evaluated in fixed order with the
first match winning; `"1. INTRODUCTION"` is matched by the numeric-prefix
pattern (index 1, not by the all-caps pattern, which rejects the leading
digit) and classified as a level-2 heading with text `INTRODUCTION`. -/
theorem c10_numeric_prefix_first_match_wins :
    headingPatternCaptures ("1. INTRODUCTION".data) =
      some (1, ["1".data, "INTRODUCTION".data]) ∧
    detectHeading ("1. INTRODUCTION".data) =
      Except.ok (some ⟨2, "INTRODUCTION".data, "## INTRODUCTION".data⟩) :=
  ⟨rfl, rfl⟩

/-! ## C3: supporting lemmas -/

theorem mem_joinWith (sep : Str) :
    ∀ (ps : List Str) (c : Char), c ∈ joinWith sep ps → c ∈ sep ∨ ∃ p ∈ ps, c ∈ p
  | [], c, h => absurd h (List.not_mem_nil c)
  | [p], c, h => Or.inr ⟨p, by simp, by simpa [joinWith] using h⟩
  | p :: q :: ps, c, h => by
    simp only [joinWith, List.append_assoc, List.mem_append] at h
    rcases h with h | h | h
    · exact Or.inr ⟨p, by simp, h⟩
    · exact Or.inl h
    · rcases mem_joinWith sep (q :: ps) c h with h' | ⟨r, hr, hc⟩
      · exact Or.inl h'
      · exact Or.inr ⟨r, List.mem_cons_of_mem p hr, hc⟩

mutual

theorem splitWSgo_pieces (cur : Str) (hcur : ∀ c ∈ cur, isWS c = false) :
    ∀ (t : Str), ∀ p ∈ splitWSgo cur t, ∀ c ∈ p, isWS c = false
  | [], p, hp, c, hc => by
    simp only [splitWSgo, List.mem_singleton] at hp
    subst hp
    exact hcur c (by simpa using hc)
  | t0 :: ts, p, hp, c, hc => by
    by_cases h0 : isWS t0
    · simp only [splitWSgo, h0, if_true, List.mem_cons] at hp
      rcases hp with rfl | hp
      · exact hcur c (by simpa using hc)
      · exact splitWSrun_pieces ts p hp c hc
    · simp only [splitWSgo, h0, if_false, Bool.false_eq_true] at hp
      refine splitWSgo_pieces (t0 :: cur) ?_ ts p hp c hc
      intro d hd
      rcases List.mem_cons.mp hd with rfl | hd
      · simpa using h0
      · exact hcur d hd

theorem splitWSrun_pieces :
    ∀ (t : Str), ∀ p ∈ splitWSrun t, ∀ c ∈ p, isWS c = false
  | [], p, hp, c, hc => by
    simp only [splitWSrun, List.mem_singleton] at hp
    subst hp
    simp at hc
  | t0 :: ts, p, hp, c, hc => by
    by_cases h0 : isWS t0
    · simp only [splitWSrun, h0, if_true] at hp
      exact splitWSrun_pieces ts p hp c hc
    · simp only [splitWSrun, h0, if_false, Bool.false_eq_true] at hp
      refine splitWSgo_pieces [t0] ?_ ts p hp c hc
      intro d hd
      rcases List.mem_cons.mp hd with rfl | hd
      · simpa using h0
      · simp at hd

end

theorem splitWS_pieces (s : Str) : ∀ p ∈ splitWS s, ∀ c ∈ p, isWS c = false :=
  splitWSgo_pieces [] (by simp) s

theorem chooseBestSuggestion_mem (w : Str) (sg : List Str) (a : Bool) (b : Str)
    (h : chooseBestSuggestion w sg a = some b) : b ∈ sg := by
  cases sg with
  | nil => simp [chooseBestSuggestion] at h
  | cons s rest =>
    simp only [chooseBestSuggestion] at h
    split at h
    · split at h
      · exact (Option.some_inj.mp h) ▸ List.mem_cons_self s rest
      · simp at h
    · exact (Option.some_inj.mp h) ▸ List.mem_cons_self s rest

theorem mem_replaceFirst (pat repl : Str) :
    ∀ (s : Str) (c : Char), c ∈ replaceFirst pat repl s → c ∈ repl ∨ c ∈ s
  | [], c, h => absurd h (List.not_mem_nil c)
  | d :: ds, c, h => by
    by_cases hs : startsWithStr pat (d :: ds)
    · simp only [replaceFirst, hs, if_true, List.mem_append] at h
      rcases h with h | h
      · exact Or.inl h
      · exact Or.inr (List.mem_cons_of_mem d (List.mem_of_mem_drop h))
    · simp only [replaceFirst, hs, if_false, Bool.false_eq_true, List.mem_cons] at h
      rcases h with rfl | h
      · exact Or.inr (List.mem_cons_self c ds)
      · rcases mem_replaceFirst pat repl ds c h with h' | h'
        · exact Or.inl h'
        · exact Or.inr (List.mem_cons_of_mem d h')

theorem spellToken_chars (o : SpellOracle) (dict : List Str) (a : Bool)
    (word : Str) (c : Char) (h : c ∈ spellToken o dict a word) :
    c ∈ word ∨ ∃ w s, s ∈ o.suggest w ∧ c ∈ s := by
  simp only [spellToken] at h
  split at h
  · exact Or.inl h
  · split at h
    · exact Or.inl h
    · split at h
      · split at h
        · exact Or.inl h
        · rename_i s rest hsugeq
          split at h
          · rename_i best hchoose
            rcases mem_replaceFirst _ _ _ _ h with h' | h'
            · refine Or.inr ⟨List.filter (fun c => isWordChar c) word, best, ?_, h'⟩
              rw [hsugeq]
              exact chooseBestSuggestion_mem _ _ _ _ hchoose
            · exact Or.inl h'
          · exact Or.inl h
      · exact Or.inl h

/-! ## C3 -/

/-- C3: for every input and dictionary oracle whose suggestions are
newline-free, the output of `performSpellCheck` contains no newline
character: the stage splits the text on every whitespace run (including the
paragraph breaks produced by structure reconstruction) and rejoins the
tokens with single spaces, so with spell check enabled every line boundary
is removed before markdown rendering. -/
theorem c3_spellcheck_output_has_no_newline (o : SpellOracle) (dict : List Str)
    (text : Str) (aggressive : Bool)
    (hsug : ∀ w s, s ∈ o.suggest w → '\n' ∉ s) :
    '\n' ∉ performSpellCheck o dict text aggressive := by
  intro hmem
  unfold performSpellCheck at hmem
  rcases mem_joinWith _ _ _ hmem with h | ⟨p, hp, hc⟩
  · simp at h
  · rcases List.mem_map.mp hp with ⟨piece, hpiece, rfl⟩
    rcases spellToken_chars o dict aggressive piece '\n' hc with hw | ⟨w, s', hs', hc'⟩
    · have := splitWS_pieces text piece hpiece '\n' hw
      simp [isWS] at this
    · exact hsug w s' hs' hc'

/-- Witness for C3 at a concrete oracle (no suggestions) and a text with a
newline. -/
theorem c3_spellcheck_no_newline_witness :
    (∀ w s, s ∈ oracleAcceptAll.suggest w → '\n' ∉ s) ∧
    '\n' ∉ performSpellCheck oracleAcceptAll [] ("line one\nline two".data) false :=
  ⟨fun w s h => by simp [oracleAcceptAll] at h,
   c3_spellcheck_output_has_no_newline _ _ _ _
     (fun w s h => by simp [oracleAcceptAll] at h)⟩

/-! ## C9, universal part -/

theorem combineGo_low (rs : List PageResult) :
    ∀ flag, (combineGo flag rs).2.2.2 =
      (rs.filter (fun r =>
        !(trimStr r.text).isEmpty && decide (r.confidence.getD 0 < 70))).map
        (fun r => (r.page, r.confidence)) := by
  induction rs with
  | nil => intro flag; simp [combineGo]
  | cons r rest ih =>
    intro flag
    by_cases he : (trimStr r.text).isEmpty
    · simp [combineGo, he, ih]
    · by_cases hc : r.confidence.getD 0 < 70
      · simp [combineGo, he, hc, ih]
      · simp [combineGo, he, hc, ih]

/-- C9 (amended): a page appears in `lowConfidencePages` iff its text is
nonblank (after trimming) and its confidence (defaulted to 0) is strictly
below 70 — blank pages are skipped by the aggregation loop even when their
confidence is low.  The list is exactly the filtered page list in input
order. -/
theorem c9_low_confidence_pages_characterization (results : List PageResult) :
    (combinePageResults results).lowConfidencePages =
      (results.filter (fun r =>
        !(trimStr r.text).isEmpty && decide (r.confidence.getD 0 < 70))).map
        (fun r => (r.page, r.confidence)) :=
  combineGo_low results false

/-! ## C7, universal part: supporting lemmas -/

theorem splitWSgo_all_nws (t : Str) :
    ∀ (cur : Str), (∀ c ∈ t, isWS c = false) → splitWSgo cur t = [cur.reverse ++ t] := by
  induction t with
  | nil => intro cur _; simp [splitWSgo]
  | cons c cs ih =>
    intro cur h
    have hc : isWS c = false := h c (List.mem_cons_self c cs)
    simp only [splitWSgo, hc, Bool.false_eq_true, if_false]
    rw [ih (c :: cur) (fun d hd => h d (List.mem_cons_of_mem c hd))]
    simp

theorem splitWS_single (w : Str) (hnws : ∀ c ∈ w, isWS c = false) :
    splitWS w = [w] := by
  unfold splitWS
  rw [splitWSgo_all_nws w [] hnws]
  simp

theorem startsWithStr_refl (s : Str) : startsWithStr s s = true := by
  induction s with
  | nil => rfl
  | cons c cs ih => simp [startsWithStr, ih]

theorem replaceFirst_self (s repl : Str) (h : s ≠ []) :
    replaceFirst s repl s = repl := by
  cases s with
  | nil => exact absurd rfl h
  | cons c cs =>
    simp only [replaceFirst, startsWithStr_refl, if_true]
    have : (c :: cs : Str).length - 1 = cs.length := by simp
    rw [this, List.drop_length, List.append_nil]

/-- C7 (amended): for a token equal to its own comparison key (word
characters only), long enough, not in the custom dictionary, reported
misspelled with top suggestion `best`: in non-aggressive mode the top
suggestion replaces the token iff its Levenshtein distance (no
transpositions) to the lowercased token is at most
`max 1 (floor(length * 0.3))`; in aggressive mode it always replaces it. -/
theorem c7_suggestion_acceptance_policy (o : SpellOracle) (word best : Str)
    (rest : List Str)
    (hclean : word.filter (fun c => isWordChar c) = word)
    (hnws : ∀ c ∈ word, isWS c = false)
    (hlen : 2 ≤ word.length)
    (hmis : o.misspelled word = true)
    (hsug : o.suggest word = best :: rest) :
    performSpellCheck o [] word false =
      (if levDistance (lowerStr word) (lowerStr best) ≤ max 1 (word.length * 3 / 10)
       then best else word) ∧
    performSpellCheck o [] word true = best := by
  have hne : word ≠ [] := by
    intro h
    rw [h] at hlen
    simp at hlen
  have hone : ∀ (a : Bool), performSpellCheck o [] word a = spellToken o [] a word := by
    intro a
    unfold performSpellCheck
    rw [splitWS_single word hnws]
    simp [joinWith]
  have htok : ∀ (a : Bool), spellToken o [] a word =
      match chooseBestSuggestion word (best :: rest) a with
      | some b => replaceFirst word b word
      | none => word := by
    intro a
    simp only [spellToken, hclean, hsug]
    rw [if_neg (by omega), if_neg (by simp), if_pos hmis]
  constructor
  · rw [hone, htok]
    simp only [chooseBestSuggestion, Bool.not_false, if_true]
    by_cases hd : levDistance (lowerStr word) (lowerStr best) ≤ max 1 (word.length * 3 / 10)
    · rw [if_pos hd, if_pos hd]
      exact replaceFirst_self word best hne
    · rw [if_neg hd, if_neg hd]
  · rw [hone, htok]
    simp only [chooseBestSuggestion, Bool.not_true, Bool.false_eq_true, if_false]
    exact replaceFirst_self word best hne

/-- The C7 witness oracle: reports exactly `wrld` misspelled with the single
suggestion `world` (distance 1). -/
def c7WitnessOracle : SpellOracle :=
  ⟨fun w => w = "wrld".data, fun w => if w = "wrld".data then ["world".data] else []⟩

/-- Witness for the amended C7 theorem: the token `wrld` (length 4,
threshold `max 1 1 = 1`, distance 1 to `world`) is corrected in
non-aggressive mode. -/
theorem c7_suggestion_acceptance_witness :
    performSpellCheck c7WitnessOracle [] ("wrld".data) false =
      (if levDistance (lowerStr "wrld".data) (lowerStr "world".data) ≤
          max 1 (("wrld".data : Str).length * 3 / 10)
       then "world".data else "wrld".data) ∧
    performSpellCheck c7WitnessOracle [] ("wrld".data) true = "world".data :=
  c7_suggestion_acceptance_policy c7WitnessOracle ("wrld".data) ("world".data) []
    (by decide) (by decide) (by decide) (by decide) (by decide)

/-! ## C8, universal part -/

/-- Adjacent-character condition for "no trailing whitespace on any line":
a character directly before a newline is either itself a newline (blank
line) or not whitespace. -/
def LineEndOK (c d : Char) : Prop := d = '\n' → c = '\n' ∨ isWS c = false

/-- The document ends with exactly one newline: the last character is a
newline and the one before it (if any) is not. -/
def endsWithSingleNL (s : Str) : Bool :=
  match s.reverse with
  | [] => false
  | c :: rest =>
    if c = '\n' then
      match rest with
      | [] => true
      | d :: _ => decide (d ≠ '\n')
    else false

theorem trimEndStr_reverse (l : Str) :
    (trimEndStr l).reverse = l.reverse.dropWhile (fun c => isWS c) := by
  simp [trimEndStr]

theorem dropWhile_head_false (p : Char → Bool) :
    ∀ (l : Str) (c : Char) (cs : Str), l.dropWhile p = c :: cs → p c = false := by
  intro l
  induction l with
  | nil => intro c cs h; simp [List.dropWhile] at h
  | cons d ds ih =>
    intro c cs h
    by_cases hd : p d
    · rw [List.dropWhile_cons_of_pos hd] at h
      exact ih c cs h
    · rw [List.dropWhile_cons_of_neg hd] at h
      cases h
      simpa using hd

theorem trimEndStr_last (l : Str) :
    trimEndStr l = [] ∨
    ∃ c cs, (trimEndStr l).reverse = c :: cs ∧ isWS c = false := by
  rcases h : l.reverse.dropWhile (fun c => isWS c) with _ | ⟨c, cs⟩
  · left
    have := trimEndStr_reverse l
    rw [h] at this
    simpa using this
  · right
    exact ⟨c, cs, by rw [trimEndStr_reverse, h],
      dropWhile_head_false _ _ _ _ h⟩

theorem trimEndStr_append (l : Str) :
    l = trimEndStr l ++ (l.reverse.takeWhile (fun c => isWS c)).reverse := by
  conv_lhs => rw [← List.reverse_reverse l,
    ← List.takeWhile_append_dropWhile (p := fun c => isWS c) (l := l.reverse)]
  rw [List.reverse_append]
  rfl

theorem splitNLgo_pieces (t : Str) :
    ∀ (cur : Str), '\n' ∉ cur → ∀ p ∈ splitNLgo cur t, '\n' ∉ p := by
  induction t with
  | nil =>
    intro cur hcur p hp
    simp only [splitNLgo, List.mem_singleton] at hp
    subst hp
    simpa using hcur
  | cons c cs ih =>
    intro cur hcur p hp
    by_cases hc : c = '\n'
    · simp only [splitNLgo, hc, if_true, List.mem_cons] at hp
      rcases hp with rfl | hp
      · simpa using hcur
      · exact ih [] (by simp) p hp
    · simp only [splitNLgo, hc, if_false] at hp
      refine ih (c :: cur) ?_ p hp
      intro hmem
      rcases List.mem_cons.mp hmem with h' | h'
      · exact hc h'.symm
      · exact hcur h'

theorem splitNL_pieces (s : Str) : ∀ p ∈ splitNL s, '\n' ∉ p :=
  splitNLgo_pieces s [] (by simp)

theorem lineEndOK_nl (d : Char) : LineEndOK '\n' d := fun _ => Or.inl rfl

theorem chain'_of_no_nl (l : Str) (h : '\n' ∉ l) : List.Chain' LineEndOK l := by
  induction l with
  | nil => exact List.chain'_nil
  | cons c cs ih =>
    refine List.chain'_cons'.mpr ⟨?_, ih (fun hm => h (List.mem_cons_of_mem c hm))⟩
    intro b hb hbnl
    exfalso
    apply h
    subst hbnl
    rcases cs with _ | ⟨d, ds⟩
    · simp at hb
    · simp only [List.head?_cons, Option.mem_def, Option.some_inj] at hb
      subst hb
      exact List.mem_cons_of_mem c (List.mem_cons_self _ _)

theorem chain'_joinNL :
    ∀ (ps : List Str),
      (∀ p ∈ ps, '\n' ∉ p) →
      (∀ p ∈ ps, ∀ c cs, p.reverse = c :: cs → isWS c = false) →
      List.Chain' LineEndOK (joinNL ps)
  | [], _, _ => List.chain'_nil
  | [p], h1, _ => by
    simpa [joinNL] using chain'_of_no_nl p (h1 p (by simp))
  | p :: q :: ps, h1, h2 => by
    have ih := chain'_joinNL (q :: ps)
      (fun r hr => h1 r (List.mem_cons_of_mem p hr))
      (fun r hr => h2 r (List.mem_cons_of_mem p hr))
    show List.Chain' LineEndOK (p ++ '\n' :: joinNL (q :: ps))
    refine List.chain'_append.mpr ⟨chain'_of_no_nl p (h1 p (by simp)), ?_, ?_⟩
    · exact List.chain'_cons'.mpr ⟨fun b _ => lineEndOK_nl b, ih⟩
    · intro x hx y hy
      simp only [List.head?_cons, Option.mem_def, Option.some_inj] at hy
      subst hy
      intro _
      right
      rcases hrev : p.reverse with _ | ⟨c, cs⟩
      · have hpnil : p = [] := by simpa using congrArg List.reverse hrev
        rw [hpnil] at hx
        simp at hx
      · have hp : p = cs.reverse ++ [c] := by
          have := congrArg List.reverse hrev
          simpa using this
        have hxc : x = c := by
          rw [hp, List.getLast?_concat] at hx
          simpa [Option.mem_def, eq_comm] using hx
        rw [hxc]
        exact h2 p (by simp) c cs hrev

theorem chain'_prefix_of_append (l1 l2 : Str)
    (h : List.Chain' LineEndOK (l1 ++ l2)) : List.Chain' LineEndOK l1 :=
  (List.chain'_append.mp h).1

theorem mem_trimEndStr (l : Str) (c : Char) (h : c ∈ trimEndStr l) : c ∈ l := by
  rw [trimEndStr_append l]
  exact List.mem_append_left _ h

/-- C8 (amended): every document produced by the final cleanup has no
trailing whitespace on any line (every character directly preceding a
newline is a newline or non-whitespace) and ends with exactly one trailing
newline.  (The blank-line bound claimed does not hold, see the
counterexample: runs of three or more blank lines can survive.) -/
theorem c8_final_cleanup_line_hygiene (s : Str) :
    List.Chain' LineEndOK (mdFinalCleanup s) ∧
    endsWithSingleNL (mdFinalCleanup s) = true := by
  have hdef : mdFinalCleanup s =
      trimEndStr (joinNL ((splitNL (listSpacing (headingSpaceAfter (headingSpaceBefore
        (collapseNL 4 "\n\n\n".data s))))).map trimEndStr)) ++ ['\n'] := rfl
  rw [hdef]
  set u := listSpacing (headingSpaceAfter (headingSpaceBefore
    (collapseNL 4 "\n\n\n".data s))) with hu
  set ps := (splitNL u).map trimEndStr with hps
  set v := joinNL ps with hv
  have hno : ∀ p ∈ ps, '\n' ∉ p := by
    intro p hp
    rcases List.mem_map.mp hp with ⟨q, hq, rfl⟩
    intro hmem
    exact splitNL_pieces u q hq (mem_trimEndStr q '\n' hmem)
  have hlast : ∀ p ∈ ps, ∀ c cs, p.reverse = c :: cs → isWS c = false := by
    intro p hp c cs hrev
    rcases List.mem_map.mp hp with ⟨q, _, rfl⟩
    rcases trimEndStr_last q with hnil | ⟨c', cs', hrev', hws⟩
    · rw [hnil] at hrev
      simp at hrev
    · rw [hrev'] at hrev
      cases hrev
      exact hws
  have hchainv : List.Chain' LineEndOK v := chain'_joinNL ps hno hlast
  have hchaintrim : List.Chain' LineEndOK (trimEndStr v) := by
    apply chain'_prefix_of_append (trimEndStr v)
      ((v.reverse.takeWhile (fun c => isWS c)).reverse)
    rw [← trimEndStr_append v]
    exact hchainv
  constructor
  · refine List.chain'_append.mpr ⟨hchaintrim, List.chain'_singleton '\n', ?_⟩
    intro x hx y hy
    simp only [List.head?_cons, Option.mem_def, Option.some_inj] at hy
    subst hy
    intro _
    rcases trimEndStr_last v with hnil | ⟨c, cs, hrev, hws⟩
    · rw [hnil] at hx
      simp at hx
    · right
      have hp : trimEndStr v = cs.reverse ++ [c] := by
        have := congrArg List.reverse hrev
        simpa using this
      have hxc : x = c := by
        rw [hp, List.getLast?_concat] at hx
        simpa [Option.mem_def, eq_comm] using hx
      rw [hxc]
      exact hws
  · have hrevapp : (trimEndStr v ++ ['\n']).reverse = '\n' :: (trimEndStr v).reverse := by
      simp
    rw [endsWithSingleNL, hrevapp]
    rcases trimEndStr_last v with hnil | ⟨c, cs, hrev, hws⟩
    · rw [hnil]
      simp
    · rw [hrev]
      have hcnl : c ≠ '\n' := by
        intro hc
        rw [hc] at hws
        simp [isWS] at hws
      simp [hcnl]

/-! ## C5: character-class facts -/

theorem ws_toNat (c : Char) (h : isWS c = true) :
    c.toNat = 32 ∨ c.toNat = 9 ∨ c.toNat = 10 ∨ c.toNat = 13 ∨
    c.toNat = 11 ∨ c.toNat = 12 := by
  simp only [isWS, Bool.or_eq_true, decide_eq_true_eq] at h
  rcases h with ((((rfl | rfl) | rfl) | rfl) | rfl) | rfl <;> decide

theorem sentP_toNat (c : Char) (h : isSentP c = true) :
    c.toNat = 46 ∨ c.toNat = 33 ∨ c.toNat = 63 := by
  simp only [isSentP, Bool.or_eq_true, decide_eq_true_eq] at h
  rcases h with (rfl | rfl) | rfl <;> decide

theorem punct6_toNat (c : Char) (h : isPunct6 c = true) :
    c.toNat = 44 ∨ c.toNat = 46 ∨ c.toNat = 59 ∨ c.toNat = 58 ∨
    c.toNat = 33 ∨ c.toNat = 63 := by
  simp only [isPunct6, Bool.or_eq_true, decide_eq_true_eq] at h
  rcases h with ((((rfl | rfl) | rfl) | rfl) | rfl) | rfl <;> decide

theorem lower_toNat (c : Char) (h : isLowerAZ c = true) :
    97 ≤ c.toNat ∧ c.toNat ≤ 122 := by
  simp only [isLowerAZ, Bool.and_eq_true, decide_eq_true_eq] at h
  exact ⟨h.1, h.2⟩

theorem lower_of_toNat (c : Char) (h1 : 97 ≤ c.toNat) (h2 : c.toNat ≤ 122) :
    isLowerAZ c = true := by
  simp only [isLowerAZ, Bool.and_eq_true, decide_eq_true_eq]
  exact ⟨h1, h2⟩

theorem ws_not_punct6 (c : Char) (h : isWS c = true) : isPunct6 c = false := by
  cases hp : isPunct6 c
  · rfl
  · have := punct6_toNat c hp
    have := ws_toNat c h
    omega

theorem ws_not_sentP (c : Char) (h : isWS c = true) : isSentP c = false := by
  cases hp : isSentP c
  · rfl
  · have := sentP_toNat c hp
    have := ws_toNat c h
    omega

theorem ws_not_lower (c : Char) (h : isWS c = true) : isLowerAZ c = false := by
  cases hp : isLowerAZ c
  · rfl
  · have := lower_toNat c hp
    have := ws_toNat c h
    omega

theorem sentP_not_ws (c : Char) (h : isSentP c = true) : isWS c = false := by
  cases hp : isWS c
  · rfl
  · have := ws_toNat c hp
    have := sentP_toNat c h
    omega

theorem sentP_not_lower (c : Char) (h : isSentP c = true) : isLowerAZ c = false := by
  cases hp : isLowerAZ c
  · rfl
  · have := lower_toNat c hp
    have := sentP_toNat c h
    omega

theorem lower_not_ws (c : Char) (h : isLowerAZ c = true) : isWS c = false := by
  cases hp : isWS c
  · rfl
  · have := ws_toNat c hp
    have := lower_toNat c h
    omega

theorem lower_not_punct6 (c : Char) (h : isLowerAZ c = true) : isPunct6 c = false := by
  cases hp : isPunct6 c
  · rfl
  · have := punct6_toNat c hp
    have := lower_toNat c h
    omega

theorem lower_not_sentP (c : Char) (h : isLowerAZ c = true) : isSentP c = false := by
  cases hp : isSentP c
  · rfl
  · have := sentP_toNat c hp
    have := lower_toNat c h
    omega

theorem upperC_toNat (c : Char) (h : isLowerAZ c = true) :
    (upperC c).toNat = c.toNat - 32 := by
  have hb := lower_toNat c h
  unfold upperC
  rw [Char.toUpper]
  rw [if_pos (show c.toNat ≥ 97 ∧ c.toNat ≤ 122 by omega)]
  have hv : Nat.isValidChar (c.toNat - 32) := Or.inl (by omega)
  rw [Char.ofNat, dif_pos hv]
  simp [Char.ofNatAux, Char.toNat, UInt32.toNat, BitVec.toNat_ofNatLt]

theorem upperC_not_lower (c : Char) (h : isLowerAZ c = true) :
    isLowerAZ (upperC c) = false := by
  have hb := lower_toNat c h
  have hu := upperC_toNat c h
  cases hp : isLowerAZ (upperC c)
  · rfl
  · have := lower_toNat _ hp
    omega

theorem upperC_not_ws (c : Char) (h : isLowerAZ c = true) :
    isWS (upperC c) = false := by
  have hb := lower_toNat c h
  have hu := upperC_toNat c h
  cases hp : isWS (upperC c)
  · rfl
  · have := ws_toNat _ hp
    omega

theorem upperC_not_punct6 (c : Char) (h : isLowerAZ c = true) :
    isPunct6 (upperC c) = false := by
  have hb := lower_toNat c h
  have hu := upperC_toNat c h
  cases hp : isPunct6 (upperC c)
  · rfl
  · have := punct6_toNat _ hp
    omega

theorem upperC_not_sentP (c : Char) (h : isLowerAZ c = true) :
    isSentP (upperC c) = false := by
  have hb := lower_toNat c h
  have hu := upperC_toNat c h
  cases hp : isSentP (upperC c)
  · rfl
  · have := sentP_toNat _ hp
    omega

/-! ## C5: invariants of normalized text -/

/-- No two adjacent whitespace characters (pass 1 leaves nothing for
`\s{2,}` to match). -/
def R1 (c d : Char) : Prop := ¬(isWS c = true ∧ isWS d = true)

/-- No whitespace directly before `,.;:!?` (pass 2 leaves nothing to
match). -/
def R2 (c d : Char) : Prop := ¬(isWS c = true ∧ isPunct6 d = true)

/-- No sentence punctuation directly before a lowercase letter. -/
def R3 (c d : Char) : Prop := ¬(isSentP c = true ∧ isLowerAZ d = true)

/-- After sentence punctuation, the following text must not consist of
optional whitespace followed by a lowercase letter. -/
def noWsThenLower : Str → Prop
  | [] => True
  | c :: cs => if isWS c = true then noWsThenLower cs else isLowerAZ c = false

/-- No occurrence of sentence punctuation followed by optional whitespace
and a lowercase letter (passes 3 and 4 leave nothing to match). -/
def q3 : Str → Prop
  | [] => True
  | c :: cs => (isSentP c = true → noWsThenLower cs) ∧ q3 cs

theorem R1_of_left {c d : Char} (h : isWS c = false) : R1 c d := by
  intro hcd
  rw [h] at hcd
  exact absurd hcd.1 (by simp)

theorem R1_of_right {c d : Char} (h : isWS d = false) : R1 c d := by
  intro hcd
  rw [h] at hcd
  exact absurd hcd.2 (by simp)

theorem R2_of_left {c d : Char} (h : isWS c = false) : R2 c d := by
  intro hcd
  rw [h] at hcd
  exact absurd hcd.1 (by simp)

theorem R2_of_right {c d : Char} (h : isPunct6 d = false) : R2 c d := by
  intro hcd
  rw [h] at hcd
  exact absurd hcd.2 (by simp)

theorem R3_of_left {c d : Char} (h : isSentP c = false) : R3 c d := by
  intro hcd
  rw [h] at hcd
  exact absurd hcd.1 (by simp)

theorem R3_of_right {c d : Char} (h : isLowerAZ d = false) : R3 c d := by
  intro hcd
  rw [h] at hcd
  exact absurd hcd.2 (by simp)

/-- A chain holds whenever the relation is implied by a property of the
right element that every list element enjoys. -/
theorem chain'_of_all_right {R : Char → Char → Prop} (p : Char → Bool)
    (hR : ∀ c d, p d = false → R c d) :
    ∀ (l : Str), (∀ d ∈ l, p d = false) → List.Chain' R l
  | [], _ => List.chain'_nil
  | c :: cs, h => by
    refine List.chain'_cons'.mpr ⟨?_, chain'_of_all_right p hR cs
      (fun d hd => h d (List.mem_cons_of_mem c hd))⟩
    intro b hb
    refine hR c b (h b ?_)
    cases cs with
    | nil => simp at hb
    | cons x xs =>
      simp only [List.head?_cons, Option.mem_def, Option.some_inj] at hb
      subst hb
      exact List.mem_cons_of_mem c (List.mem_cons_self _ _)

theorem rel_head_of_chain' {R : Char → Char → Prop} {c : Char} {cs : Str}
    (h : List.Chain' R (c :: cs)) : ∀ b ∈ cs.head?, R c b :=
  (List.chain'_cons'.mp h).1

theorem chain'_tail_of_chain' {R : Char → Char → Prop} {c : Char} {cs : Str}
    (h : List.Chain' R (c :: cs)) : List.Chain' R cs :=
  (List.chain'_cons'.mp h).2

/-! ## C5: `noWsThenLower` and `q3` helpers -/

theorem noWsThenLower_all_ws : ∀ (w : Str), (∀ x ∈ w, isWS x = true) → noWsThenLower w
  | [], _ => trivial
  | c :: cs, h => by
    have hc := h c (List.mem_cons_self c cs)
    simp only [noWsThenLower, hc, if_true]
    exact noWsThenLower_all_ws cs (fun x hx => h x (List.mem_cons_of_mem c hx))

theorem noWsThenLower_ws_append :
    ∀ (w z : Str), (∀ x ∈ w, isWS x = true) → noWsThenLower z → noWsThenLower (w ++ z)
  | [], z, _, hz => hz
  | c :: cs, z, h, hz => by
    have hc := h c (List.mem_cons_self c cs)
    simp only [List.cons_append, noWsThenLower, hc, if_true]
    exact noWsThenLower_ws_append cs z (fun x hx => h x (List.mem_cons_of_mem c hx)) hz

theorem noWsThenLower_cons_not_ws {c : Char} {cs : Str}
    (hc : isWS c = false) (hl : isLowerAZ c = false) : noWsThenLower (c :: cs) := by
  simp only [noWsThenLower, hc]
  simp [hl]

theorem q3_ws_append :
    ∀ (w z : Str), (∀ x ∈ w, isWS x = true) → q3 z → q3 (w ++ z)
  | [], z, _, hz => hz
  | c :: cs, z, h, hz => by
    have hc := h c (List.mem_cons_self c cs)
    simp only [List.cons_append, q3]
    refine ⟨fun hp => absurd hp ?_, q3_ws_append cs z
      (fun x hx => h x (List.mem_cons_of_mem c hx)) hz⟩
    simp [ws_not_sentP c hc]

theorem q3_all_ws (w : Str) (h : ∀ x ∈ w, isWS x = true) : q3 w := by
  have := q3_ws_append w [] h trivial
  simpa using this

theorem q3_cons_not_sentP {c : Char} {cs : Str}
    (hc : isSentP c = false) (h : q3 cs) : q3 (c :: cs) := by
  refine ⟨fun hp => ?_, h⟩
  rw [hc] at hp
  exact absurd hp (by simp)

/-! ## C5: pass 1 (`collapseWS`) -/

theorem wsFlush_shape (pend : Str) :
    wsFlush pend = [] ∨ ∃ x, wsFlush pend = [x] := by
  unfold wsFlush
  by_cases h : pend.length ≥ 2
  · rw [if_pos h]
    exact Or.inr ⟨' ', rfl⟩
  · rw [if_neg h]
    rcases pend with _ | ⟨x, _ | ⟨y, ys⟩⟩
    · exact Or.inl rfl
    · exact Or.inr ⟨x, rfl⟩
    · exfalso
      apply h
      simp only [List.length_cons]
      omega

theorem collapseWSgo_nil (pend : Str) : collapseWSgo pend [] = wsFlush pend := rfl

theorem collapseWSgo_cons_ws (pend : Str) (c : Char) (cs : Str) (h : isWS c = true) :
    collapseWSgo pend (c :: cs) = collapseWSgo (c :: pend) cs := by
  simp [collapseWSgo, h]

theorem collapseWSgo_cons_not_ws (pend : Str) (c : Char) (cs : Str) (h : isWS c = false) :
    collapseWSgo pend (c :: cs) = wsFlush pend ++ c :: collapseWSgo [] cs := by
  simp [collapseWSgo, h]

theorem collapseWSgo_chain :
    ∀ (t : Str) (pend : Str), List.Chain' R1 (collapseWSgo pend t)
  | [], pend => by
    simp only [collapseWSgo]
    rcases wsFlush_shape pend with h | ⟨x, h⟩ <;> rw [h]
    · exact List.chain'_nil
    · exact List.chain'_singleton x
  | c :: cs, pend => by
    by_cases hc : isWS c
    · rw [collapseWSgo_cons_ws pend c cs hc]
      exact collapseWSgo_chain cs (c :: pend)
    · rw [collapseWSgo_cons_not_ws pend c cs (by simpa using hc)]
      have hin : List.Chain' R1 (c :: collapseWSgo [] cs) := by
        refine List.chain'_cons'.mpr ⟨?_, collapseWSgo_chain cs []⟩
        intro b _
        exact R1_of_left (by simpa using hc)
      rcases wsFlush_shape pend with h | ⟨x, h⟩ <;> rw [h]
      · simpa using hin
      · rw [List.singleton_append]
        refine List.chain'_cons'.mpr ⟨?_, hin⟩
        intro b hb
        simp only [List.head?_cons, Option.mem_def, Option.some_inj] at hb
        subst hb
        exact R1_of_right (by simpa using hc)

theorem collapseWS_chain (s : Str) : List.Chain' R1 (collapseWS s) :=
  collapseWSgo_chain s []

theorem collapseWS_id :
    ∀ (t : Str), List.Chain' R1 t → collapseWSgo [] t = t
  | [], _ => rfl
  | [c], _ => by
    by_cases hc : isWS c
    · rw [collapseWSgo_cons_ws [] c [] hc, collapseWSgo_nil]
      simp [wsFlush]
    · rw [collapseWSgo_cons_not_ws [] c [] (by simpa using hc), collapseWSgo_nil]
      simp [wsFlush]
  | c :: d :: ds, h => by
    by_cases hc : isWS c
    · have hd : isWS d = false := by
        have := rel_head_of_chain' h d (by simp)
        unfold R1 at this
        cases hdd : isWS d
        · rfl
        · exact absurd ⟨hc, hdd⟩ this
      rw [collapseWSgo_cons_ws [] c (d :: ds) hc,
          collapseWSgo_cons_not_ws [c] d ds hd,
          collapseWS_id ds (chain'_tail_of_chain' (chain'_tail_of_chain' h))]
      simp [wsFlush]
    · rw [collapseWSgo_cons_not_ws [] c (d :: ds) (by simpa using hc),
          collapseWS_id (d :: ds) (chain'_tail_of_chain' h)]
      simp [wsFlush]

/-! ## C5: pass 2 (`dropWSBeforePunct`) -/

theorem chain'_suffix_cons {R : Char → Char → Prop} {x : Str} {c : Char} {cs : Str}
    (h : List.Chain' R (x ++ c :: cs)) : List.Chain' R (c :: cs) :=
  (List.chain'_append.mp h).2.1

theorem chain'_front {R : Char → Char → Prop} {x y : Str}
    (h : List.Chain' R (x ++ y)) : List.Chain' R x :=
  (List.chain'_append.mp h).1

theorem chain'_boundary {R : Char → Char → Prop} {x : Str} {c : Char} {cs : Str}
    (h : List.Chain' R (x ++ c :: cs)) : ∀ a ∈ x.getLast?, R a c :=
  fun a ha => (List.chain'_append.mp h).2.2 a ha c (by simp)

theorem f2_nil (pend : Str) : dropWSBeforePunctGo pend [] = pend.reverse := rfl

theorem f2_ws (pend : Str) (c : Char) (cs : Str) (h : isWS c = true) :
    dropWSBeforePunctGo pend (c :: cs) = dropWSBeforePunctGo (c :: pend) cs := by
  simp [dropWSBeforePunctGo, h]

theorem f2_punct (pend : Str) (c : Char) (cs : Str) (hws : isWS c = false)
    (hcond : (isPunct6 c && !pend.isEmpty) = true) :
    dropWSBeforePunctGo pend (c :: cs) = c :: dropWSBeforePunctGo [] cs := by
  simp only [dropWSBeforePunctGo, hws, Bool.false_eq_true, if_false, hcond, if_true]

theorem f2_flush (pend : Str) (c : Char) (cs : Str) (hws : isWS c = false)
    (hcond : (isPunct6 c && !pend.isEmpty) = false) :
    dropWSBeforePunctGo pend (c :: cs) = pend.reverse ++ c :: dropWSBeforePunctGo [] cs := by
  simp only [dropWSBeforePunctGo, hws, Bool.false_eq_true, if_false, hcond]

theorem pend_rev_eq (pend : Str) (p : Char) (ps : Str) (h : pend = p :: ps) :
    pend.reverse = ps.reverse ++ [p] := by
  rw [h, List.reverse_cons]

theorem dropWSBeforePunct_chains :
    ∀ (t pend : Str), (∀ x ∈ pend, isWS x = true) →
      List.Chain' R1 (pend.reverse ++ t) →
      List.Chain' R1 (dropWSBeforePunctGo pend t) ∧
      List.Chain' R2 (dropWSBeforePunctGo pend t)
  | [], pend, hpend, h1 => by
    rw [f2_nil]
    constructor
    · simpa using h1
    · refine chain'_of_all_right isPunct6 (fun c d hd => R2_of_right hd) _ ?_
      intro d hd
      exact ws_not_punct6 d (hpend d (by simpa using hd))
  | c :: cs, pend, hpend, h1 => by
    by_cases hc : isWS c
    · rw [f2_ws pend c cs hc]
      refine dropWSBeforePunct_chains cs (c :: pend) ?_ ?_
      · intro x hx
        rcases List.mem_cons.mp hx with rfl | hx
        · exact hc
        · exact hpend x hx
      · simpa [List.append_assoc] using h1
    · have hcw : isWS c = false := by simpa using hc
      have hsufr1 : List.Chain' R1 cs :=
        chain'_tail_of_chain' (chain'_suffix_cons h1)
      have ihr := dropWSBeforePunct_chains cs [] (by simp) (by simpa using hsufr1)
      have hconsr1 : List.Chain' R1 (c :: dropWSBeforePunctGo [] cs) :=
        List.chain'_cons'.mpr ⟨fun b _ => R1_of_left hcw, ihr.1⟩
      have hconsr2 : List.Chain' R2 (c :: dropWSBeforePunctGo [] cs) :=
        List.chain'_cons'.mpr ⟨fun b _ => R2_of_left hcw, ihr.2⟩
      by_cases hcond : (isPunct6 c && !pend.isEmpty) = true
      · rw [f2_punct pend c cs hcw hcond]
        exact ⟨hconsr1, hconsr2⟩
      · rw [f2_flush pend c cs hcw (by simpa using hcond)]
        constructor
        · refine List.chain'_append.mpr ⟨chain'_front h1, hconsr1, ?_⟩
          intro a ha y hy
          simp only [List.head?_cons, Option.mem_def, Option.some_inj] at hy
          subst hy
          exact chain'_boundary h1 a ha
        · refine List.chain'_append.mpr ⟨?_, hconsr2, ?_⟩
          · refine chain'_of_all_right isPunct6 (fun x d hd => R2_of_right hd) _ ?_
            intro d hd
            exact ws_not_punct6 d (hpend d (by simpa using hd))
          · intro a ha y hy
            simp only [List.head?_cons, Option.mem_def, Option.some_inj] at hy
            subst hy
            refine R2_of_right ?_
            rcases pend with _ | ⟨p, ps⟩
            · simp at ha
            · have : ¬(isPunct6 c = true ∧ (p :: ps : Str) ≠ []) := by
                intro ⟨hp, hne⟩
                apply hcond
                simp [hp]
              cases hpc : isPunct6 c
              · rfl
              · exact absurd ⟨hpc, by simp⟩ this
  termination_by t => t.length
  decreasing_by all_goals (simp only [List.length_cons]; omega)

theorem dropWSBeforePunct_id :
    ∀ (t pend : Str), (∀ x ∈ pend, isWS x = true) →
      List.Chain' R2 (pend.reverse ++ t) →
      dropWSBeforePunctGo pend t = pend.reverse ++ t
  | [], pend, _, _ => by simp [f2_nil]
  | c :: cs, pend, hpend, h2 => by
    by_cases hc : isWS c
    · rw [f2_ws pend c cs hc]
      rw [dropWSBeforePunct_id cs (c :: pend) ?_ ?_]
      · simp [List.append_assoc]
      · intro x hx
        rcases List.mem_cons.mp hx with rfl | hx
        · exact hc
        · exact hpend x hx
      · simpa [List.append_assoc] using h2
    · have hcw : isWS c = false := by simpa using hc
      have hcond : (isPunct6 c && !pend.isEmpty) = false := by
        rcases hp : pend with _ | ⟨p, ps⟩
        · simp
        · have hb := chain'_boundary h2 p (by
            rw [pend_rev_eq pend p ps hp, List.getLast?_concat]
            rfl)
          unfold R2 at hb
          have hpws : isWS p = true := hpend p (by rw [hp]; exact List.mem_cons_self p ps)
          cases hpc : isPunct6 c
          · simp
          · exact absurd ⟨hpws, hpc⟩ hb
      rw [f2_flush pend c cs hcw hcond]
      rw [dropWSBeforePunct_id cs [] (by simp) ?_]
      · simp
      · have := chain'_tail_of_chain' (chain'_suffix_cons h2)
        simpa using this
  termination_by t => t.length
  decreasing_by all_goals (simp only [List.length_cons]; omega)

/-! ## C5: pass 3 (`spaceAfterPunct`) -/

/-- The unemitted input consumed by the scanning state of passes 3 and 4. -/
def flowState : Option (Char × Str) → Str
  | none => []
  | some (p, run) => p :: run.reverse

/-- Well-formedness of the scanning state: the pending character is
sentence punctuation and the pending run is whitespace. -/
def flowStateOK : Option (Char × Str) → Prop
  | none => True
  | some (p, run) => isSentP p = true ∧ ∀ x ∈ run, isWS x = true

theorem f3_none_nil : spaceAfterPunctGo none [] = [] := rfl

theorem f3_some_nil (p : Char) (run : Str) :
    spaceAfterPunctGo (some (p, run)) [] = p :: run.reverse := rfl

theorem f3_none_sentP (c : Char) (cs : Str) (h : isSentP c = true) :
    spaceAfterPunctGo none (c :: cs) = spaceAfterPunctGo (some (c, [])) cs := by
  simp [spaceAfterPunctGo, h]

theorem f3_none_other (c : Char) (cs : Str) (h : isSentP c = false) :
    spaceAfterPunctGo none (c :: cs) = c :: spaceAfterPunctGo none cs := by
  simp [spaceAfterPunctGo, h]

theorem f3_some_ws (p : Char) (run : Str) (c : Char) (cs : Str) (h : isWS c = true) :
    spaceAfterPunctGo (some (p, run)) (c :: cs) =
      spaceAfterPunctGo (some (p, c :: run)) cs := by
  simp [spaceAfterPunctGo, h]

theorem f3_some_lower (p : Char) (run : Str) (c : Char) (cs : Str)
    (hws : isWS c = false) (hl : isLowerAZ c = true) :
    spaceAfterPunctGo (some (p, run)) (c :: cs) =
      p :: ' ' :: c :: spaceAfterPunctGo none cs := by
  simp [spaceAfterPunctGo, hws, hl]

theorem f3_some_sentP (p : Char) (run : Str) (c : Char) (cs : Str)
    (hws : isWS c = false) (hl : isLowerAZ c = false) (hp : isSentP c = true) :
    spaceAfterPunctGo (some (p, run)) (c :: cs) =
      p :: run.reverse ++ spaceAfterPunctGo (some (c, [])) cs := by
  simp [spaceAfterPunctGo, hws, hl, hp]

theorem f3_some_other (p : Char) (run : Str) (c : Char) (cs : Str)
    (hws : isWS c = false) (hl : isLowerAZ c = false) (hp : isSentP c = false) :
    spaceAfterPunctGo (some (p, run)) (c :: cs) =
      p :: run.reverse ++ c :: spaceAfterPunctGo none cs := by
  simp [spaceAfterPunctGo, hws, hl, hp]

theorem f3go_some_head :
    ∀ (t : Str) (p : Char) (run : Str),
      ∃ rest, spaceAfterPunctGo (some (p, run)) t = p :: rest
  | [], p, run => ⟨run.reverse, rfl⟩
  | c :: cs, p, run => by
    by_cases hws : isWS c
    · rw [f3_some_ws p run c cs hws]
      exact f3go_some_head cs p (c :: run)
    · have hws' : isWS c = false := by simpa using hws
      by_cases hl : isLowerAZ c
      · rw [f3_some_lower p run c cs hws' hl]
        exact ⟨' ' :: c :: spaceAfterPunctGo none cs, rfl⟩
      · by_cases hp : isSentP c
        · rw [f3_some_sentP p run c cs hws' (by simpa using hl) hp]
          exact ⟨run.reverse ++ spaceAfterPunctGo (some (c, [])) cs, rfl⟩
        · rw [f3_some_other p run c cs hws' (by simpa using hl) (by simpa using hp)]
          exact ⟨run.reverse ++ c :: spaceAfterPunctGo none cs, rfl⟩

theorem f3go_none_head (c : Char) (cs : Str) :
    ∃ rest, spaceAfterPunctGo none (c :: cs) = c :: rest := by
  by_cases hp : isSentP c
  · rw [f3_none_sentP c cs hp]
    exact f3go_some_head cs c []
  · rw [f3_none_other c cs (by simpa using hp)]
    exact ⟨spaceAfterPunctGo none cs, rfl⟩

theorem rel_head_out {R : Char → Char → Prop} (c : Char) (cs : Str)
    (hrel : ∀ b ∈ cs.head?, R c b) :
    ∀ b ∈ (spaceAfterPunctGo none cs).head?, R c b := by
  intro b hb
  cases cs with
  | nil =>
    rw [f3_none_nil] at hb
    simp at hb
  | cons d ds =>
    rcases f3go_none_head d ds with ⟨rest, hrest⟩
    rw [hrest] at hb
    simp only [List.head?_cons, Option.mem_def, Option.some_inj] at hb
    subst hb
    exact hrel d (by simp)

theorem flowState_ws_shift (p c : Char) (run cs : Str) :
    (flowState (some (p, c :: run)) ++ cs : Str) =
      flowState (some (p, run)) ++ c :: cs := by
  simp [flowState, List.append_assoc]

theorem spaceAfterPunct_chains :
    ∀ (t : Str) (st : Option (Char × Str)), flowStateOK st →
      List.Chain' R1 (flowState st ++ t) →
      List.Chain' R2 (flowState st ++ t) →
      List.Chain' R1 (spaceAfterPunctGo st t) ∧
      List.Chain' R2 (spaceAfterPunctGo st t) ∧
      List.Chain' R3 (spaceAfterPunctGo st t)
  | [], none, _, _, _ => by
    rw [f3_none_nil]
    exact ⟨List.chain'_nil, List.chain'_nil, List.chain'_nil⟩
  | [], some (p, run), hok, h1, h2 => by
    rw [f3_some_nil]
    refine ⟨by simpa [flowState] using h1, by simpa [flowState] using h2, ?_⟩
    refine chain'_of_all_right isLowerAZ (fun x d hd => R3_of_right hd) _ ?_
    intro d hd
    rcases List.mem_cons.mp hd with rfl | hd
    · exact sentP_not_lower d hok.1
    · exact ws_not_lower d (hok.2 d (by simpa using hd))
  | c :: cs, none, _, h1, h2 => by
    simp only [flowState, List.nil_append] at h1 h2
    by_cases hp : isSentP c
    · rw [f3_none_sentP c cs hp]
      refine spaceAfterPunct_chains cs (some (c, [])) ⟨hp, by simp⟩ ?_ ?_
      · simpa [flowState] using h1
      · simpa [flowState] using h2
    · have hp' : isSentP c = false := by simpa using hp
      rw [f3_none_other c cs hp']
      have ih := spaceAfterPunct_chains cs none trivial
        (by simpa [flowState] using chain'_tail_of_chain' h1)
        (by simpa [flowState] using chain'_tail_of_chain' h2)
      refine ⟨List.chain'_cons'.mpr ⟨rel_head_out c cs (rel_head_of_chain' h1), ih.1⟩,
        List.chain'_cons'.mpr ⟨rel_head_out c cs (rel_head_of_chain' h2), ih.2.1⟩,
        List.chain'_cons'.mpr ⟨fun b _ => R3_of_left hp', ih.2.2⟩⟩
  | c :: cs, some (p, run), hok, h1, h2 => by
    by_cases hws : isWS c
    · rw [f3_some_ws p run c cs hws]
      refine spaceAfterPunct_chains cs (some (p, c :: run))
        ⟨hok.1, ?_⟩ ?_ ?_
      · intro x hx
        rcases List.mem_cons.mp hx with rfl | hx
        · exact hws
        · exact hok.2 x hx
      · rw [flowState_ws_shift]
        exact h1
      · rw [flowState_ws_shift]
        exact h2
    · have hws' : isWS c = false := by simpa using hws
      simp only [flowState] at h1 h2
      have hpws : isWS p = false := sentP_not_ws p hok.1
      by_cases hl : isLowerAZ c
      · rw [f3_some_lower p run c cs hws' hl]
        have ih := spaceAfterPunct_chains cs none trivial
          (by simpa [flowState] using chain'_tail_of_chain' (chain'_suffix_cons h1))
          (by simpa [flowState] using chain'_tail_of_chain' (chain'_suffix_cons h2))
        refine ⟨?_, ?_, ?_⟩
        · refine List.chain'_cons'.mpr ⟨fun b _ => R1_of_left hpws, ?_⟩
          refine List.chain'_cons'.mpr ⟨fun b hb => ?_, ?_⟩
          · simp only [List.head?_cons, Option.mem_def, Option.some_inj] at hb
            subst hb
            exact R1_of_right (lower_not_ws _ hl)
          · exact List.chain'_cons'.mpr
              ⟨rel_head_out c cs (rel_head_of_chain'
                (chain'_suffix_cons h1)), ih.1⟩
        · refine List.chain'_cons'.mpr ⟨fun b _ => R2_of_left hpws, ?_⟩
          refine List.chain'_cons'.mpr ⟨fun b hb => ?_, ?_⟩
          · simp only [List.head?_cons, Option.mem_def, Option.some_inj] at hb
            subst hb
            exact R2_of_right (lower_not_punct6 _ hl)
          · exact List.chain'_cons'.mpr
              ⟨rel_head_out c cs (rel_head_of_chain'
                (chain'_suffix_cons h2)), ih.2.1⟩
        · refine List.chain'_cons'.mpr ⟨fun b hb => ?_, ?_⟩
          · simp only [List.head?_cons, Option.mem_def, Option.some_inj] at hb
            subst hb
            exact R3_of_right (by decide)
          refine List.chain'_cons'.mpr ⟨fun b hb => ?_, ?_⟩
          · simp only [List.head?_cons, Option.mem_def, Option.some_inj] at hb
            subst hb
            exact R3_of_left (by decide)
          exact List.chain'_cons'.mpr ⟨fun b _ => R3_of_left (lower_not_sentP _ hl), ih.2.2⟩
      · have hl' : isLowerAZ c = false := by simpa using hl
        have hpre3 : List.Chain' R3 (p :: run.reverse) := by
          refine chain'_of_all_right isLowerAZ (fun x d hd => R3_of_right hd) _ ?_
          intro d hd
          rcases List.mem_cons.mp hd with rfl | hd
          · exact sentP_not_lower d hok.1
          · exact ws_not_lower d (hok.2 d (by simpa using hd))
        by_cases hp : isSentP c
        · rw [f3_some_sentP p run c cs hws' hl' hp]
          have ih := spaceAfterPunct_chains cs (some (c, [])) ⟨hp, by simp⟩
            (by simpa [flowState] using chain'_suffix_cons h1)
            (by simpa [flowState] using chain'_suffix_cons h2)
          rcases f3go_some_head cs c [] with ⟨rest, hrest⟩
          refine ⟨?_, ?_, ?_⟩
          · refine List.chain'_append.mpr ⟨chain'_front h1, ih.1, ?_⟩
            intro a ha y hy
            rw [hrest] at hy
            simp only [List.head?_cons, Option.mem_def, Option.some_inj] at hy
            subst hy
            exact chain'_boundary h1 a ha
          · refine List.chain'_append.mpr ⟨chain'_front h2, ih.2.1, ?_⟩
            intro a ha y hy
            rw [hrest] at hy
            simp only [List.head?_cons, Option.mem_def, Option.some_inj] at hy
            subst hy
            exact chain'_boundary h2 a ha
          · refine List.chain'_append.mpr ⟨hpre3, ih.2.2, ?_⟩
            intro a ha y hy
            rw [hrest] at hy
            simp only [List.head?_cons, Option.mem_def, Option.some_inj] at hy
            subst hy
            exact R3_of_right (sentP_not_lower _ hp)
        · have hp' : isSentP c = false := by simpa using hp
          rw [f3_some_other p run c cs hws' hl' hp']
          have ih := spaceAfterPunct_chains cs none trivial
            (by simpa [flowState] using chain'_tail_of_chain' (chain'_suffix_cons h1))
            (by simpa [flowState] using chain'_tail_of_chain' (chain'_suffix_cons h2))
          refine ⟨?_, ?_, ?_⟩
          · refine List.chain'_append.mpr ⟨chain'_front h1, ?_, ?_⟩
            · exact List.chain'_cons'.mpr
                ⟨rel_head_out c cs (rel_head_of_chain' (chain'_suffix_cons h1)), ih.1⟩
            · intro a ha y hy
              simp only [List.head?_cons, Option.mem_def, Option.some_inj] at hy
              subst hy
              exact chain'_boundary h1 a ha
          · refine List.chain'_append.mpr ⟨chain'_front h2, ?_, ?_⟩
            · exact List.chain'_cons'.mpr
                ⟨rel_head_out c cs (rel_head_of_chain' (chain'_suffix_cons h2)), ih.2.1⟩
            · intro a ha y hy
              simp only [List.head?_cons, Option.mem_def, Option.some_inj] at hy
              subst hy
              exact chain'_boundary h2 a ha
          · refine List.chain'_append.mpr ⟨hpre3, ?_, ?_⟩
            · exact List.chain'_cons'.mpr ⟨fun b _ => R3_of_left hp', ih.2.2⟩
            · intro a ha y hy
              simp only [List.head?_cons, Option.mem_def, Option.some_inj] at hy
              subst hy
              exact R3_of_right hl'

theorem f3_some_unfold :
    ∀ (t : Str) (p : Char) (run : Str), noWsThenLower t →
      spaceAfterPunctGo (some (p, run)) t =
        p :: run.reverse ++ spaceAfterPunctGo none t
  | [], p, run, _ => by simp [f3_some_nil, f3_none_nil]
  | c :: cs, p, run, hnw => by
    by_cases hws : isWS c
    · have hnw' : noWsThenLower cs := by
        have : noWsThenLower (c :: cs) = noWsThenLower cs := by
          simp [noWsThenLower, hws]
        rwa [this] at hnw
      rw [f3_some_ws p run c cs hws,
          f3_some_unfold cs p (c :: run) hnw',
          f3_none_other c cs (ws_not_sentP c hws)]
      simp [List.append_assoc]
    · have hws' : isWS c = false := by simpa using hws
      have hl : isLowerAZ c = false := by
        have : noWsThenLower (c :: cs) = (isLowerAZ c = false) := by
          simp [noWsThenLower, hws']
        rwa [this] at hnw
      by_cases hp : isSentP c
      · rw [f3_some_sentP p run c cs hws' hl hp, f3_none_sentP c cs hp]
      · have hp' : isSentP c = false := by simpa using hp
        rw [f3_some_other p run c cs hws' hl hp', f3_none_other c cs hp']

theorem f3_id : ∀ (t : Str), q3 t → spaceAfterPunctGo none t = t
  | [], _ => rfl
  | c :: cs, hq => by
    by_cases hp : isSentP c
    · rw [f3_none_sentP c cs hp, f3_some_unfold cs c [] (hq.1 hp), f3_id cs hq.2]
      simp
    · rw [f3_none_other c cs (by simpa using hp), f3_id cs hq.2]

/-! ## C5: pass 4 (`capAfterPunct`) -/

theorem f4_none_nil : capAfterPunctGo none [] = [] := rfl

theorem f4_some_nil (p : Char) (run : Str) :
    capAfterPunctGo (some (p, run)) [] = p :: run.reverse := rfl

theorem f4_none_sentP (c : Char) (cs : Str) (h : isSentP c = true) :
    capAfterPunctGo none (c :: cs) = capAfterPunctGo (some (c, [])) cs := by
  simp [capAfterPunctGo, h]

theorem f4_none_other (c : Char) (cs : Str) (h : isSentP c = false) :
    capAfterPunctGo none (c :: cs) = c :: capAfterPunctGo none cs := by
  simp [capAfterPunctGo, h]

theorem f4_some_ws (p : Char) (run : Str) (c : Char) (cs : Str) (h : isWS c = true) :
    capAfterPunctGo (some (p, run)) (c :: cs) =
      capAfterPunctGo (some (p, c :: run)) cs := by
  simp [capAfterPunctGo, h]

theorem f4_some_match (p : Char) (run : Str) (c : Char) (cs : Str)
    (hws : isWS c = false) (hcond : (isLowerAZ c && !run.isEmpty) = true) :
    capAfterPunctGo (some (p, run)) (c :: cs) =
      p :: run.reverse ++ upperC c :: capAfterPunctGo none cs := by
  simp only [capAfterPunctGo, hws, Bool.false_eq_true, if_false, hcond, if_true]

theorem f4_some_sentP (p : Char) (run : Str) (c : Char) (cs : Str)
    (hws : isWS c = false) (hcond : (isLowerAZ c && !run.isEmpty) = false)
    (hp : isSentP c = true) :
    capAfterPunctGo (some (p, run)) (c :: cs) =
      p :: run.reverse ++ capAfterPunctGo (some (c, [])) cs := by
  simp only [capAfterPunctGo, hws, Bool.false_eq_true, if_false, hcond, hp, if_true]

theorem f4_some_other (p : Char) (run : Str) (c : Char) (cs : Str)
    (hws : isWS c = false) (hcond : (isLowerAZ c && !run.isEmpty) = false)
    (hp : isSentP c = false) :
    capAfterPunctGo (some (p, run)) (c :: cs) =
      p :: run.reverse ++ c :: capAfterPunctGo none cs := by
  simp only [capAfterPunctGo, hws, Bool.false_eq_true, if_false, hcond, hp]

theorem f4go_some_head :
    ∀ (t : Str) (p : Char) (run : Str),
      ∃ rest, capAfterPunctGo (some (p, run)) t = p :: rest
  | [], p, run => ⟨run.reverse, rfl⟩
  | c :: cs, p, run => by
    by_cases hws : isWS c
    · rw [f4_some_ws p run c cs hws]
      exact f4go_some_head cs p (c :: run)
    · have hws' : isWS c = false := by simpa using hws
      by_cases hcond : (isLowerAZ c && !run.isEmpty) = true
      · rw [f4_some_match p run c cs hws' hcond]
        exact ⟨run.reverse ++ upperC c :: capAfterPunctGo none cs, rfl⟩
      · have hcond' := by simpa using hcond
        by_cases hp : isSentP c
        · rw [f4_some_sentP p run c cs hws' (by simpa using hcond) hp]
          exact ⟨run.reverse ++ capAfterPunctGo (some (c, [])) cs, rfl⟩
        · rw [f4_some_other p run c cs hws' (by simpa using hcond) (by simpa using hp)]
          exact ⟨run.reverse ++ c :: capAfterPunctGo none cs, rfl⟩

theorem f4go_none_head (c : Char) (cs : Str) :
    ∃ rest, capAfterPunctGo none (c :: cs) = c :: rest := by
  by_cases hp : isSentP c
  · rw [f4_none_sentP c cs hp]
    exact f4go_some_head cs c []
  · rw [f4_none_other c cs (by simpa using hp)]
    exact ⟨capAfterPunctGo none cs, rfl⟩

theorem rel_head_out4 {R : Char → Char → Prop} (c : Char) (cs : Str)
    (hrel : ∀ b ∈ cs.head?, R c b) :
    ∀ b ∈ (capAfterPunctGo none cs).head?, R c b := by
  intro b hb
  cases cs with
  | nil =>
    rw [f4_none_nil] at hb
    simp at hb
  | cons d ds =>
    rcases f4go_none_head d ds with ⟨rest, hrest⟩
    rw [hrest] at hb
    simp only [List.head?_cons, Option.mem_def, Option.some_inj] at hb
    subst hb
    exact hrel d (by simp)

theorem capAfterPunct_chains :
    ∀ (t : Str) (st : Option (Char × Str)), flowStateOK st →
      List.Chain' R1 (flowState st ++ t) →
      List.Chain' R2 (flowState st ++ t) →
      List.Chain' R3 (flowState st ++ t) →
      List.Chain' R1 (capAfterPunctGo st t) ∧
      List.Chain' R2 (capAfterPunctGo st t) ∧
      q3 (capAfterPunctGo st t)
  | [], none, _, _, _, _ => by
    rw [f4_none_nil]
    exact ⟨List.chain'_nil, List.chain'_nil, trivial⟩
  | [], some (p, run), hok, h1, h2, _ => by
    rw [f4_some_nil]
    refine ⟨by simpa [flowState] using h1, by simpa [flowState] using h2, ?_⟩
    refine ⟨fun _ => noWsThenLower_all_ws run.reverse ?_, q3_all_ws run.reverse ?_⟩ <;>
      (intro x hx; exact hok.2 x (by simpa using hx))
  | c :: cs, none, _, h1, h2, h3 => by
    simp only [flowState, List.nil_append] at h1 h2 h3
    by_cases hp : isSentP c
    · rw [f4_none_sentP c cs hp]
      refine capAfterPunct_chains cs (some (c, [])) ⟨hp, by simp⟩ ?_ ?_ ?_ <;>
        simpa [flowState]
    · have hp' : isSentP c = false := by simpa using hp
      rw [f4_none_other c cs hp']
      have ih := capAfterPunct_chains cs none trivial
        (by simpa [flowState] using chain'_tail_of_chain' h1)
        (by simpa [flowState] using chain'_tail_of_chain' h2)
        (by simpa [flowState] using chain'_tail_of_chain' h3)
      exact ⟨List.chain'_cons'.mpr ⟨rel_head_out4 c cs (rel_head_of_chain' h1), ih.1⟩,
        List.chain'_cons'.mpr ⟨rel_head_out4 c cs (rel_head_of_chain' h2), ih.2.1⟩,
        q3_cons_not_sentP hp' ih.2.2⟩
  | c :: cs, some (p, run), hok, h1, h2, h3 => by
    by_cases hws : isWS c
    · rw [f4_some_ws p run c cs hws]
      refine capAfterPunct_chains cs (some (p, c :: run)) ⟨hok.1, ?_⟩ ?_ ?_ ?_
      · intro x hx
        rcases List.mem_cons.mp hx with rfl | hx
        · exact hws
        · exact hok.2 x hx
      all_goals (rw [flowState_ws_shift]; assumption)
    · have hws' : isWS c = false := by simpa using hws
      simp only [flowState] at h1 h2 h3
      have hpws : isWS p = false := sentP_not_ws p hok.1
      have hrunws : ∀ x ∈ run.reverse, isWS x = true := by
        intro x hx
        exact hok.2 x (by simpa using hx)
      by_cases hcond : (isLowerAZ c && !run.isEmpty) = true
      · have hl : isLowerAZ c = true := by
          rw [Bool.and_eq_true] at hcond
          exact hcond.1
        rw [f4_some_match p run c cs hws' hcond]
        have ih := capAfterPunct_chains cs none trivial
          (by simpa [flowState] using chain'_tail_of_chain' (chain'_suffix_cons h1))
          (by simpa [flowState] using chain'_tail_of_chain' (chain'_suffix_cons h2))
          (by simpa [flowState] using chain'_tail_of_chain' (chain'_suffix_cons h3))
        refine ⟨?_, ?_, ?_⟩
        · refine List.chain'_append.mpr ⟨chain'_front h1, ?_, ?_⟩
          · exact List.chain'_cons'.mpr
              ⟨fun b _ => R1_of_left (upperC_not_ws c hl), ih.1⟩
          · intro a ha y hy
            simp only [List.head?_cons, Option.mem_def, Option.some_inj] at hy
            subst hy
            exact R1_of_right (upperC_not_ws c hl)
        · refine List.chain'_append.mpr ⟨chain'_front h2, ?_, ?_⟩
          · exact List.chain'_cons'.mpr
              ⟨fun b _ => R2_of_left (upperC_not_ws c hl), ih.2.1⟩
          · intro a ha y hy
            simp only [List.head?_cons, Option.mem_def, Option.some_inj] at hy
            subst hy
            exact R2_of_right (upperC_not_punct6 c hl)
        · rw [List.cons_append]
          refine ⟨fun _ => ?_, ?_⟩
          · exact noWsThenLower_ws_append run.reverse _ hrunws
              (noWsThenLower_cons_not_ws (upperC_not_ws c hl) (upperC_not_lower c hl))
          · exact q3_ws_append run.reverse _ hrunws
              (q3_cons_not_sentP (upperC_not_sentP c hl) ih.2.2)
      · have hcond' : (isLowerAZ c && !run.isEmpty) = false := by simpa using hcond
        by_cases hp : isSentP c
        · rw [f4_some_sentP p run c cs hws' hcond' hp]
          have ih := capAfterPunct_chains cs (some (c, [])) ⟨hp, by simp⟩
            (by simpa [flowState] using chain'_suffix_cons h1)
            (by simpa [flowState] using chain'_suffix_cons h2)
            (by simpa [flowState] using chain'_suffix_cons h3)
          rcases f4go_some_head cs c [] with ⟨rest, hrest⟩
          refine ⟨?_, ?_, ?_⟩
          · refine List.chain'_append.mpr ⟨chain'_front h1, ih.1, ?_⟩
            intro a ha y hy
            rw [hrest] at hy
            simp only [List.head?_cons, Option.mem_def, Option.some_inj] at hy
            subst hy
            exact chain'_boundary h1 a ha
          · refine List.chain'_append.mpr ⟨chain'_front h2, ih.2.1, ?_⟩
            intro a ha y hy
            rw [hrest] at hy
            simp only [List.head?_cons, Option.mem_def, Option.some_inj] at hy
            subst hy
            exact chain'_boundary h2 a ha
          · rw [List.cons_append]
            refine ⟨fun _ => ?_, ?_⟩
            · refine noWsThenLower_ws_append run.reverse _ hrunws ?_
              rw [hrest]
              exact noWsThenLower_cons_not_ws hws' (sentP_not_lower c hp)
            · exact q3_ws_append run.reverse _ hrunws ih.2.2
        · have hp' : isSentP c = false := by simpa using hp
          rw [f4_some_other p run c cs hws' hcond' hp']
          have hlf : isLowerAZ c = false := by
            rcases hr : run with _ | ⟨r0, rs⟩
            · have hb := chain'_boundary h3 p (by simp [hr])
              unfold R3 at hb
              cases hlc : isLowerAZ c
              · rfl
              · exact absurd (And.intro hok.1 hlc) hb
            · cases hlc : isLowerAZ c
              · rfl
              · exfalso
                rw [hlc, hr] at hcond'
                simp at hcond'
          have ih := capAfterPunct_chains cs none trivial
            (by simpa [flowState] using chain'_tail_of_chain' (chain'_suffix_cons h1))
            (by simpa [flowState] using chain'_tail_of_chain' (chain'_suffix_cons h2))
            (by simpa [flowState] using chain'_tail_of_chain' (chain'_suffix_cons h3))
          refine ⟨?_, ?_, ?_⟩
          · refine List.chain'_append.mpr ⟨chain'_front h1, ?_, ?_⟩
            · exact List.chain'_cons'.mpr
                ⟨rel_head_out4 c cs (rel_head_of_chain' (chain'_suffix_cons h1)), ih.1⟩
            · intro a ha y hy
              simp only [List.head?_cons, Option.mem_def, Option.some_inj] at hy
              subst hy
              exact chain'_boundary h1 a ha
          · refine List.chain'_append.mpr ⟨chain'_front h2, ?_, ?_⟩
            · exact List.chain'_cons'.mpr
                ⟨rel_head_out4 c cs (rel_head_of_chain' (chain'_suffix_cons h2)), ih.2.1⟩
            · intro a ha y hy
              simp only [List.head?_cons, Option.mem_def, Option.some_inj] at hy
              subst hy
              exact chain'_boundary h2 a ha
          · rw [List.cons_append]
            refine ⟨fun _ => ?_, ?_⟩
            · exact noWsThenLower_ws_append run.reverse _ hrunws
                (noWsThenLower_cons_not_ws hws' hlf)
            · exact q3_ws_append run.reverse _ hrunws
                (q3_cons_not_sentP hp' ih.2.2)

theorem f4_some_unfold :
    ∀ (t : Str) (p : Char) (run : Str), noWsThenLower t →
      capAfterPunctGo (some (p, run)) t =
        p :: run.reverse ++ capAfterPunctGo none t
  | [], p, run, _ => by simp [f4_some_nil, f4_none_nil]
  | c :: cs, p, run, hnw => by
    by_cases hws : isWS c
    · have hnw' : noWsThenLower cs := by
        have : noWsThenLower (c :: cs) = noWsThenLower cs := by
          simp [noWsThenLower, hws]
        rwa [this] at hnw
      rw [f4_some_ws p run c cs hws,
          f4_some_unfold cs p (c :: run) hnw',
          f4_none_other c cs (ws_not_sentP c hws)]
      simp [List.append_assoc]
    · have hws' : isWS c = false := by simpa using hws
      have hl : isLowerAZ c = false := by
        have : noWsThenLower (c :: cs) = (isLowerAZ c = false) := by
          simp [noWsThenLower, hws']
        rwa [this] at hnw
      have hcond : (isLowerAZ c && !run.isEmpty) = false := by simp [hl]
      by_cases hp : isSentP c
      · rw [f4_some_sentP p run c cs hws' hcond hp, f4_none_sentP c cs hp]
      · have hp' : isSentP c = false := by simpa using hp
        rw [f4_some_other p run c cs hws' hcond hp', f4_none_other c cs hp']

theorem f4_id : ∀ (t : Str), q3 t → capAfterPunctGo none t = t
  | [], _ => rfl
  | c :: cs, hq => by
    by_cases hp : isSentP c
    · rw [f4_none_sentP c cs hp, f4_some_unfold cs c [] (hq.1 hp), f4_id cs hq.2]
      simp
    · rw [f4_none_other c cs (by simpa using hp), f4_id cs hq.2]

/-! ## C5: assembly -/

theorem flowPasses_chains (s : Str) :
    List.Chain' R1 (flowPasses s) ∧ List.Chain' R2 (flowPasses s) ∧
    q3 (flowPasses s) := by
  have c1 : List.Chain' R1 (collapseWS s) := collapseWS_chain s
  have c2 := dropWSBeforePunct_chains (collapseWS s) [] (by simp) (by simpa using c1)
  have c3 := spaceAfterPunct_chains (dropWSBeforePunctGo [] (collapseWS s)) none trivial
    (by simpa [flowState] using c2.1) (by simpa [flowState] using c2.2)
  have c4 := capAfterPunct_chains
    (spaceAfterPunctGo none (dropWSBeforePunctGo [] (collapseWS s))) none trivial
    (by simpa [flowState] using c3.1) (by simpa [flowState] using c3.2.1)
    (by simpa [flowState] using c3.2.2)
  exact c4

theorem flowPasses_idem (s : Str) : flowPasses (flowPasses s) = flowPasses s := by
  have h := flowPasses_chains s
  show capAfterPunctGo none (spaceAfterPunctGo none
    (dropWSBeforePunctGo [] (collapseWSgo [] (flowPasses s)))) = flowPasses s
  rw [collapseWS_id (flowPasses s) h.1]
  have h2 : dropWSBeforePunctGo [] (flowPasses s) = flowPasses s := by
    have := dropWSBeforePunct_id (flowPasses s) [] (by simp) (by simpa using h.2.1)
    simpa using this
  rw [h2, f3_id (flowPasses s) h.2.2, f4_id (flowPasses s) h.2.2]

/-! ## C5 -/

/-- C5: flow normalization is idempotent.  `improveTextFlow` is the
`compromise` round-trip followed by the four cleanup passes; under the
assumption that the external NLP round-trip leaves already-normalized text
unchanged, applying the stage twice equals applying it once (the four
passes themselves are idempotent for every input). -/
theorem c5_improve_text_flow_idempotent (nlp : Str → Str) (s : Str)
    (hnlp : ∀ u, nlp (flowPasses u) = flowPasses u) :
    improveTextFlow nlp (improveTextFlow nlp s) = improveTextFlow nlp s := by
  unfold improveTextFlow
  rw [hnlp (nlp s)]
  exact flowPasses_idem (nlp s)

/-- Witness for C5 with the identity NLP round-trip and a concrete noisy
string. -/
theorem c5_improve_text_flow_idempotent_witness :
    improveTextFlow id (improveTextFlow id ("mr.smith  saw it .then left".data)) =
      improveTextFlow id ("mr.smith  saw it .then left".data) :=
  c5_improve_text_flow_idempotent id ("mr.smith  saw it .then left".data)
    (fun _ => rfl)
